import Mathlib

/-! # kt_triangle: triangle rescattering amplitude

A shallow embedding of the numerical core of `dwinney/kt_triangle`
(Feynman-parameter integrand, rational-integral kernels, projection
kernels and the triangle evaluator) together with theorems about it.

Conventions of the embedding.
* `double` is read as `ℝ`, `std::complex<double>` as `ℂ`, `int` as `ℤ`.
* The complex `log` is `Complex.log` (principal branch), the complex `sqrt`
  is the principal square root `csqrt`.
* A call of `exit` after a diagnostic is an error value of `Except Fatal`.
* The unchecked reads `weights[i]` and `abscissas[i]` are `getD i 0`. A read past the
  end is undefined in the sources, so the theorems about the quadrature loops are
  stated for a cache that is not yet generated or holds `xN` entries.
* The pointer `lhc_func` is the total function `disc`: an unset pointer is not
  modelled. Signed zeros are not modelled either: where an operand of `log` is a
  negative real with imaginary part `-0.0` in the sources, `Complex.log` takes the
  branch `+iπ`.
-/

namespace KT

open Complex

/-! ## constants.hpp -/

/-- The constant `EPS = 1.e-6`. -/
noncomputable def EPS : ℝ := 1e-6

/-- The constant `mPi = 0.13957061`. -/
noncomputable def mPi : ℝ := 0.13957061

/-- The unit real `xr(1., 0.)`. -/
def xr : ℂ := ⟨1, 0⟩

/-- The unit imaginary `xi(0., 1.)`. -/
def xi : ℂ := ⟨0, 1⟩

/-- The offset `ieps(0., EPS)`. -/
noncomputable def ieps : ℂ := ⟨0, EPS⟩

/-- Principal complex square root, `std::sqrt` on `std::complex<double>`. -/
noncomputable def csqrt (z : ℂ) : ℂ := z ^ (1 / 2 : ℂ)

/-! ## Fatal diagnostics -/

/-- The diagnostics after which the program calls `exit`. Each constructor
carries the values the message prints. -/
inductive Fatal where
  /-- The message "Error! Insufficient subtractions!" of `dF3_integrand::eval`, with `j`, `jp`, `n`. -/
  | insufficient_subtractions (j jp n : ℤ)
  /-- The message "n times subtracted integrands not yet implimented" of `dF3_integrand::eval`. -/
  | subtractions_not_implemented (n : ℤ)
  /-- The message of the `error` lambda of `dF3_integrand::mT`, with `j`, `jp` and the code. -/
  | mT_combination_not_available (j jp code : ℤ)
  /-- The message "Feynman integrand T of divergence order l not yet implimented". -/
  | T_not_implemented (ell : ℤ)
  /-- The message of the `error` lambda of `projection_function::eval`, with `j` and `jp`. -/
  | projection_combination_not_available (j jp : ℤ)
  /-- The message "Not enough Q's!!!" of `projection_function::Q`. -/
  | not_enough_Qs
  /-- The message "ERROR: wrong number of weights generated for some reason." -/
  | wrong_number_of_weights
  deriving DecidableEq, Repr

/-! ## Quantum numbers -/

/-- The descriptor behind the pointer `qns`. The fields `j`, `jp`, `l`, `n`
are read by the sources; `id` holds the value returned by the method `id()`,
whose body is in a header that is not among the sources. -/
structure quantum_numbers where
  j : ℤ
  jp : ℤ
  l : ℤ
  n : ℤ
  id : ℤ
  deriving DecidableEq, Repr

/-! ## feynman/dF3_integrand.cpp -/

/-- The fields of a `dF3_integrand` object that the sources read or write. -/
structure dF3_integrand where
  s : ℝ
  x : ℝ
  y : ℝ
  z : ℝ
  denom0 : ℂ
  delta0 : ℂ
  denom : ℂ
  delta : ℂ
  mDec2 : ℝ
  mPi2 : ℝ

namespace dF3_integrand

/-- The method `dF3_integrand::T(int ell)`: the dimensionally regularized integral
of divergence order `ell`. -/
noncomputable def T (self : dF3_integrand) (ell : ℤ) : Except Fatal ℂ :=
  if ell = 0 then
    .ok (xr / (self.denom - ieps) / (2 * (Real.pi : ℂ)))
  else if ell = 1 then
    .ok (2 * Complex.log (self.denom - ieps) / (2 * (Real.pi : ℂ)))
  else
    .error (Fatal.T_not_implemented ell)

/-- The method `dF3_integrand::mT(int id, double _s)`. It first overwrites the
scratch fields `denom` and `delta`, then dispatches on `id`; it returns the
value together with the object after the call. -/
noncomputable def mT (qns : quantum_numbers) (self : dF3_integrand) (id : ℤ) (_s : ℝ) :
    Except Fatal (ℂ × dF3_integrand) :=
  let self : dF3_integrand :=
    { self with
      denom := self.denom0 - ((self.x * self.y * _s : ℝ) : ℂ)
      delta := self.delta0 - ((self.x * self.y * _s : ℝ) : ℂ) }
  if id = 0 then do
    let t0 ← T self 0
    pure (t0, self)
  else if id = 1 then do
    let t1 ← T self 1
    let t0 ← T self 0
    pure (t1 + (self.delta + 2 * (_s : ℂ) - (self.mDec2 : ℂ) - 3 * (self.mPi2 : ℂ)) * t0, self)
  else if id = 10 then do
    let t0 ← T self 0
    pure ((self.z : ℂ) * t0, self)
  else if id = 11 then do
    let t1 ← T self 1
    let t0 ← T self 0
    pure ((3 * (self.z : ℂ) - 1) * t1 / 2
      + (self.z : ℂ) * (self.delta + 2 * (_s : ℂ) - (self.mDec2 : ℂ) - 3 * (self.mPi2 : ℂ)) * t0, self)
  else if id = 20 then do
    let t0 ← T self 0
    pure (((self.z * self.z : ℝ) : ℂ) * t0, self)
  else if id = 10000 then do
    let t1 ← T self 1
    let t0 ← T self 0
    let t0' ← T self 0
    pure (((_s + self.mDec2 - self.mPi2 : ℝ) : ℂ) * (t1 + self.delta * t0)
      + (((_s - self.mDec2 - self.mPi2) * (self.mDec2 - self.mPi2) : ℝ) : ℂ) * t0', self)
  else if id = -11111 then do
    let t1 ← T self 1
    pure (-2 * t1, self)
  else
    .error (Fatal.mT_combination_not_available qns.j qns.jp qns.id)

/-- The method `dF3_integrand::eval(double x, double y, double z)`.
`update_fparams` is declared in a header that is not among the sources and is
taken as a parameter. In the once-subtracted case the left operand of the
difference is evaluated first. -/
noncomputable def eval (update_fparams : dF3_integrand → ℝ → ℝ → ℝ → dF3_integrand)
    (qns : quantum_numbers) (self : dF3_integrand) (x y z : ℝ) :
    Except Fatal (ℂ × dF3_integrand) :=
  let self := update_fparams self x y z
  if qns.n < 0 then
    .error (Fatal.insufficient_subtractions qns.j qns.jp qns.n)
  else
    let id := qns.id
    if qns.n = 0 then
      mT qns self id self.s
    else if qns.n = 1 then do
      let r1 ← mT qns self id self.s
      let r0 ← mT qns r1.2 id 0
      pure (r1.1 - r0.1, r0.2)
    else
      .error (Fatal.subtractions_not_implemented qns.n)

/-- The wave codes for which `mT` has a closed form. -/
def supported_id (id : ℤ) : Prop :=
  id = 0 ∨ id = 1 ∨ id = 10 ∨ id = 11 ∨ id = 20 ∨ id = 10000 ∨ id = -11111

instance (id : ℤ) : Decidable (supported_id id) := by
  unfold supported_id; infer_instance

/-- The once-subtracted value `mT(id, s) - mT(id, 0.)` with the left operand
evaluated first, as in `eval`. -/
noncomputable def subtracted_left_first (qns : quantum_numbers) (self : dF3_integrand) (id : ℤ)
    (s : ℝ) : Except Fatal (ℂ × dF3_integrand) := do
  let r1 ← mT qns self id s
  let r0 ← mT qns r1.2 id 0
  pure (r1.1 - r0.1, r0.2)

/-- The once-subtracted value `mT(id, s) - mT(id, 0.)` with the right operand
evaluated first, the other order the language allows for the two calls. -/
noncomputable def subtracted_right_first (qns : quantum_numbers) (self : dF3_integrand) (id : ℤ)
    (s : ℝ) : Except Fatal (ℂ × dF3_integrand) := do
  let r0 ← mT qns self id 0
  let r1 ← mT qns r0.2 id s
  pure (r1.1 - r0.1, r1.2)

end dF3_integrand

/-! ## feynman/rational_integrals.cpp -/

/-- The function `c_atan`: the arctangent written through a logarithm. -/
noncomputable def c_atan (z : ℂ) : ℂ :=
  Complex.log ((z + xi) / (z - xi)) / (-2 * xi)

/-- The function `ri_poly1(y, a, b, c)`, "Integral over 1/(a y^2 + b y + c)". -/
noncomputable def ri_poly1 (y : ℝ) (a b c : ℂ) : ℂ :=
  let d : ℂ := 4 * a * c - b * b
  c_atan ((2 * a * (y : ℂ) + b) / csqrt (d * xr)) * (2 / csqrt (d * xr))

/-- The function `ri_poly2(y, a, b, c, e, f, g)`,
"Integral over (e y^2 + f y + g) / (a y^2 + b y + c)". -/
noncomputable def ri_poly2 (y : ℝ) (a b c e f g : ℂ) : ℂ :=
  let d : ℂ := b * b - 4 * a * c
  let term1 : ℂ :=
    c_atan ((2 * a * (y : ℂ) + b) / csqrt (-d))
      * (b * b * e - a * f * b + 2 * a * (a * g - c * e)) / (a * a * csqrt (-d))
  let term2 : ℂ :=
    Complex.log (a * (y : ℂ) * (y : ℂ) + b * (y : ℂ) + c * xr) * (a * f - b * e) / (2 * a * a)
  let term3 : ℂ := e * (y : ℂ) / a
  term1 + term2 + term3

/-- The function `ri_log1(y, a, b, c)`, "Integral over Log(1/(a y^2 + b y + c))". -/
noncomputable def ri_log1 (y : ℝ) (a b c : ℂ) : ℂ :=
  let d : ℂ := b * b - 4 * a * c
  let term1 : ℂ :=
    -c_atan ((2 * a * (y : ℂ) + b) / csqrt (-d * xr)) * (csqrt (-d * xr) / a)
  let term2 : ℂ :=
    (y : ℂ) * Complex.log (xr / (a * (y : ℂ) * (y : ℂ) + b * (y : ℂ) + c * xr))
  let term3 : ℂ :=
    Complex.log (a * (y : ℂ) * (y : ℂ) + b * (y : ℂ) + c) * (-b / (2 * a))
  let term4 : ℂ := 2 * (y : ℂ)
  term1 + term2 + term3 + term4

/-! ## dispersive/projection_function.cpp -/

/-- The function `Kallen(x, y, z)`, the usual triangle function. -/
def Kallen (x y z : ℂ) : ℂ :=
  x * x + y * y + z * z - 2 * (x * z + y * z + x * y)

/-- The fields of a `projection_function` object that the sources read. -/
structure projection_function where
  mDec2 : ℝ
  mPi2 : ℝ

namespace projection_function

/-- The method `projection_function::Kacser(double s)`. -/
noncomputable def Kacser (self : projection_function) (s : ℝ) : ℂ :=
  csqrt ((((Real.sqrt s + mPi) ^ (2 : ℝ) : ℝ) : ℂ) - (self.mDec2 : ℂ) - ieps)
    * csqrt ((((Real.sqrt s - mPi) ^ (2 : ℝ) : ℝ) : ℂ) - (self.mDec2 : ℂ) - ieps)
    * (csqrt (Kallen (s : ℂ) (self.mPi2 : ℂ) (self.mPi2 : ℂ)) / (s : ℂ))

/-- The method `projection_function::barrier_ratio(int ell, double s)`. -/
noncomputable def barrier_ratio (self : projection_function) (ell : ℤ) (s : ℝ) : ℂ :=
  if ell = 0 then
    1
  else
    let result : ℂ :=
      csqrt (Kallen (s : ℂ) (self.mPi2 : ℂ) (self.mPi2 : ℂ))
        / csqrt ((((Real.sqrt s + mPi) ^ (2 : ℝ) : ℝ) : ℂ) - (self.mDec2 : ℂ) - ieps)
        / csqrt ((((Real.sqrt s - mPi) ^ (2 : ℝ) : ℝ) : ℂ) - (self.mDec2 : ℂ) - ieps)
    result ^ (xr * (((ell : ℤ) : ℝ) : ℂ))

/-- The method `projection_function::t_minus(double s)`. -/
noncomputable def t_minus (self : projection_function) (s : ℝ) : ℂ :=
  ((self.mDec2 : ℂ) + ieps) + (self.mPi2 : ℂ)
    - ((s : ℂ) + (self.mDec2 : ℂ) + ieps - (self.mPi2 : ℂ)) / 2 - Kacser self s / 2

/-- The method `projection_function::t_plus(double s)`. -/
noncomputable def t_plus (self : projection_function) (s : ℝ) : ℂ :=
  ((self.mDec2 : ℂ) + ieps) + (self.mPi2 : ℂ)
    - ((s : ℂ) + (self.mDec2 : ℂ) + ieps - (self.mPi2 : ℂ)) / 2 + Kacser self s / 2

/-- The method `projection_function::Q_0(double s, double t)`. -/
noncomputable def Q_0 (self : projection_function) (s t : ℝ) : ℂ :=
  (Complex.log ((t : ℂ) - ieps - t_minus self s) - Complex.log ((t : ℂ) - ieps - t_plus self s))
    / Kacser self s

/-- The method `projection_function::Q(int k, double s, double t)`. -/
noncomputable def Q (self : projection_function) (k : ℤ) (s t : ℝ) : Except Fatal ℂ :=
  if k = 0 then
    .ok (Q_0 self s t)
  else if k = 1 then
    .ok ((t : ℂ) * Q_0 self s t - 1)
  else if k = 2 then
    .ok (((t * t : ℝ) : ℂ) * Q_0 self s t - (t : ℂ)
      - 0.5 * (t_plus self s ^ (2 : ℂ) - t_minus self s ^ (2 : ℂ)) / Kacser self s)
  else
    .error Fatal.not_enough_Qs

/-- The method `projection_function::eval(double s, double t)`. The local
`result` starts at `0.`; the branch `j = 2` assigns it only when `jp = 0`. -/
noncomputable def eval (qns : quantum_numbers) (self : projection_function) (s t : ℝ) :
    Except Fatal ℂ := do
  let error : Except Fatal ℂ :=
    .error (Fatal.projection_combination_not_available qns.j qns.jp)
  let result : ℂ ←
    if qns.j = 0 then
      if qns.jp = 0 then
        Q self qns.l s t
      else if qns.jp = 1 then do
        let q1 ← Q self (qns.l + 1) s t
        let q0 ← Q self qns.l s t
        pure (q1 + ((2 * s - self.mDec2 - 3 * self.mPi2 : ℝ) : ℂ) * q0)
      else
        error
    else if qns.j = 1 then do
      let result : ℂ ←
        if qns.jp = 0 then do
          let q1 ← Q self (qns.l + 1) s t
          let q0 ← Q self qns.l s t
          pure (2 * q1 + ((s - self.mDec2 - 3 * self.mPi2 : ℝ) : ℂ) * q0)
        else if qns.jp = 1 then do
          let q2 ← Q self (qns.l + 2) s t
          let q1 ← Q self (qns.l + 1) s t
          let q0 ← Q self qns.l s t
          pure (2 * q2 + ((5 * s + -3 * self.mDec2 - 9 * self.mPi2 : ℝ) : ℂ) * q1
            + ((2 * s * s - 3 * self.mDec2 * s - 9 * self.mPi2 * s + self.mDec2 * self.mDec2
                + 6 * self.mDec2 * self.mPi2 + 9 * self.mPi2 * self.mPi2 : ℝ) : ℂ) * q0)
        else
          error
      pure (result / Kacser self s)
    else if qns.j = 2 then
      if qns.jp = 0 then do
        let q2 ← Q self (qns.l + 2) s t
        let q1 ← Q self (qns.l + 1) s t
        let q0 ← Q self qns.l s t
        pure ((12 * q2 + ((12 * s - 12 * self.mDec2 - 36 * self.mPi2 : ℝ) : ℂ) * q1
          + ((3 * s * s - 6 * self.mDec2 * s + 3 * self.mDec2 * self.mDec2 - 18 * self.mPi2 * s
              + 18 * self.mPi2 * self.mDec2 + 27 * self.mPi2 * self.mPi2 - 1 : ℝ) : ℂ) * q0) / 2
          / Kacser self s ^ (2 : ℂ))
      else
        pure 0
    else
      error
  pure (result * barrier_ratio self qns.j s / ((t ^ ((qns.l : ℤ) : ℝ) : ℝ) : ℂ))

/-- The pairs `(j, jp)` the projection kernel is specified for. -/
def supported_pair (j jp : ℤ) : Prop :=
  (j = 0 ∧ jp = 0) ∨ (j = 0 ∧ jp = 1) ∨ (j = 1 ∧ jp = 0) ∨ (j = 1 ∧ jp = 1) ∨ (j = 2 ∧ jp = 0)

instance (j jp : ℤ) : Decidable (supported_pair j jp) := by
  unfold supported_pair; infer_instance

/-- The value `Q(k, s, t)` returns for `k = 0, 1, 2`; it is `0` where `Q` exits
instead of returning. -/
noncomputable def Q_value (self : projection_function) (k : ℤ) (s t : ℝ) : ℂ :=
  match Q self k s t with
  | .ok q => q
  | .error _ => 0

/-- The condition that every index `eval` hands to `Q` for the pair `(j, jp)` and the
orbital momentum `l` lies in `{0, 1, 2}`. -/
def Q_indices_ok (j jp l : ℤ) : Prop :=
  (j = 0 ∧ jp = 0 ∧ 0 ≤ l ∧ l ≤ 2) ∨ (j = 0 ∧ jp = 1 ∧ 0 ≤ l ∧ l ≤ 1)
    ∨ (j = 1 ∧ jp = 0 ∧ 0 ≤ l ∧ l ≤ 1) ∨ (j = 1 ∧ jp = 1 ∧ l = 0) ∨ (j = 2 ∧ jp = 0 ∧ l = 0)

instance (j jp l : ℤ) : Decidable (Q_indices_ok j jp l) := by
  unfold Q_indices_ok; infer_instance

/-- The weighted sum `W` of `Q(l)`, `Q(l+1)`, `Q(l+2)` attached to a supported pair
`(j, jp)`, written as the stated closed form has it: `Q(l)` for `(0, 0)`,
`Q(l+1) + (2s - mDec2 - 3 mPi2) Q(l)` for `(0, 1)`, the two- and three-term sums for
`(1, 0)` and `(1, 1)`, and half the three-term sum for `(2, 0)`. -/
noncomputable def projection_weight (self : projection_function) (j jp l : ℤ) (s t : ℝ) : ℂ :=
  if j = 0 ∧ jp = 0 then
    Q_value self l s t
  else if j = 0 ∧ jp = 1 then
    Q_value self (l + 1) s t + ((2 * s - self.mDec2 - 3 * self.mPi2 : ℝ) : ℂ) * Q_value self l s t
  else if j = 1 ∧ jp = 0 then
    2 * Q_value self (l + 1) s t + ((s - self.mDec2 - 3 * self.mPi2 : ℝ) : ℂ) * Q_value self l s t
  else if j = 1 ∧ jp = 1 then
    2 * Q_value self (l + 2) s t
      + ((5 * s - 3 * self.mDec2 - 9 * self.mPi2 : ℝ) : ℂ) * Q_value self (l + 1) s t
      + ((2 * s * s - 3 * self.mDec2 * s - 9 * self.mPi2 * s + self.mDec2 * self.mDec2
          + 6 * self.mDec2 * self.mPi2 + 9 * self.mPi2 * self.mPi2 : ℝ) : ℂ) * Q_value self l s t
  else if j = 2 ∧ jp = 0 then
    (12 * Q_value self (l + 2) s t
      + ((12 * s - 12 * self.mDec2 - 36 * self.mPi2 : ℝ) : ℂ) * Q_value self (l + 1) s t
      + ((3 * s * s - 6 * self.mDec2 * s + 3 * self.mDec2 * self.mDec2 - 18 * self.mPi2 * s
          + 18 * self.mPi2 * self.mDec2 + 27 * self.mPi2 * self.mPi2 - 1 : ℝ) : ℂ)
        * Q_value self l s t) / 2
  else
    0

/-- The closed form stated for `eval`: `W * barrier_ratio(j, s) / (Kacser(s)^j * t^l)`. -/
noncomputable def projection_closed_form (qns : quantum_numbers) (self : projection_function)
    (s t : ℝ) : ℂ :=
  projection_weight self qns.j qns.jp qns.l s t * barrier_ratio self qns.j s
    / (Kacser self s ^ qns.j.toNat * ((t ^ qns.l.toNat : ℝ) : ℂ))

end projection_function

/-! ## scalar_triangle.cpp -/

/-- The routine `gauleg(x1, x2, x, w, n)` is declared in a header that is not
among the sources and is taken as a parameter: `x x1 x2 n i` and `w x1 x2 n i`
are the abscissa and the weight it stores at index `i` of its two output
arrays when asked for the rule of order `n` on `[x1, x2]`. Both callers read
the indices `1, ..., xN`. -/
structure gauleg_rule where
  x : ℝ → ℝ → ℤ → ℤ → ℝ
  w : ℝ → ℝ → ℤ → ℤ → ℝ

/-- One invocation of `gauleg`: the interval, the declared length of the two
scratch arrays handed over, and the order asked for. -/
structure gauleg_call where
  x1 : ℝ
  x2 : ℝ
  scratch_length : ℤ
  n : ℤ

/-- The quadrature cache of a `scalar_triangle`: the flag `WG_GENERATED` and the
vectors `weights` and `abscissas`. The field `gauleg_calls` is a ghost log of
the invocations of `gauleg` made so far, oldest first. -/
structure quadrature_cache where
  WG_GENERATED : Bool
  weights : List ℝ
  abscissas : List ℝ
  gauleg_calls : List gauleg_call

/-- The configuration of a `scalar_triangle`: the masses, the thresholds, the
excluded interval `exc`, the quadrature order `xN` and the discontinuity
`lhc_func->disc`. -/
structure scalar_triangle where
  m1 : ℝ
  m2 : ℝ
  p1 : ℝ
  p2 : ℝ
  t_thresh : ℝ
  s_thresh : ℝ
  p_thresh : ℝ
  exc : ℝ
  xN : ℤ
  disc : ℝ → ℂ

namespace scalar_triangle

/-- The loop indices `1, ..., xN` of `for (int i = 1; i < xN + 1; i++)`. -/
def indices_from_one (xN : ℤ) : List ℤ :=
  (List.range xN.toNat).map (fun i : ℕ => (i : ℤ) + 1)

/-- The method `scalar_triangle::check_weights()`. -/
def check_weights (gl : gauleg_rule) (xN : ℤ) (c : quadrature_cache) :
    Except Fatal quadrature_cache :=
  if c.WG_GENERATED = false then
    let called : List gauleg_call := c.gauleg_calls ++ [⟨0, 1, xN + 1, xN + 1⟩]
    let weights : List ℝ := (indices_from_one xN).map (fun i => gl.w 0 1 (xN + 1) i)
    let abscissas : List ℝ := (indices_from_one xN).map (fun i => gl.x 0 1 (xN + 1) i)
    if (weights.length : ℤ) ≠ xN ∨ (abscissas.length : ℤ) ≠ xN then
      .error Fatal.wrong_number_of_weights
    else
      .ok ⟨true, weights, abscissas, called⟩
  else
    .ok c

/-- The node `a + tan(M_PI * u / 2.)` placed for the abscissa `u`. -/
noncomputable def tan_node (a u : ℝ) : ℝ :=
  a + Real.tan (Real.pi * u / 2)

/-- The factor `(M_PI / 2.) / pow(cos(M_PI * u / 2.), 2.)` commented "jacobian". -/
noncomputable def jacobian (u : ℝ) : ℝ :=
  (Real.pi / 2) / (Real.cos (Real.pi * u / 2)) ^ (2 : ℝ)

/-- The coefficient `a` of `kernel_integrand`. -/
def kernel_a (T : scalar_triangle) : ℂ :=
  ((T.p2 * T.p2 : ℝ) : ℂ)

/-- The coefficient `b` of `kernel_integrand`. -/
noncomputable def kernel_b (T : scalar_triangle) (s t x : ℝ) : ℂ :=
  ((T.m1 * T.m1 + (x - 1) * T.p2 * T.p2 : ℝ) : ℂ) + (x : ℂ) * (((T.p1 * T.p1 : ℝ) : ℂ) + ieps)
    - ((x * s : ℝ) : ℂ) - (t : ℂ)

/-- The coefficient `c` of `kernel_integrand`. -/
noncomputable def kernel_c (T : scalar_triangle) (t x : ℝ) : ℂ :=
  (((1 - x) * t + x * T.m1 * T.m1 : ℝ) : ℂ)
    + ((x * (x - 1) : ℝ) : ℂ) * (((T.p1 * T.p1 : ℝ) : ℂ) + ieps)

/-- The discriminant `d = b * b - 4. * a * c` of `kernel_integrand`. -/
noncomputable def kernel_d (T : scalar_triangle) (s t x : ℝ) : ℂ :=
  kernel_b T s t x * kernel_b T s t x - 4 * kernel_a T * kernel_c T t x

/-- The root `y_plus` of `kernel_integrand`. -/
noncomputable def y_plus (T : scalar_triangle) (s t x : ℝ) : ℂ :=
  (-kernel_b T s t x + csqrt (xr * kernel_d T s t x)) / (2 * kernel_a T)

/-- The root `y_minus` of `kernel_integrand`. -/
noncomputable def y_minus (T : scalar_triangle) (s t x : ℝ) : ℂ :=
  (-kernel_b T s t x - csqrt (xr * kernel_d T s t x)) / (2 * kernel_a T)

/-- The method `scalar_triangle::kernel_integrand(s, t, x)`. -/
noncomputable def kernel_integrand (T : scalar_triangle) (s t x : ℝ) : ℂ :=
  ((Complex.log (y_plus T s t x + (x : ℂ) - xr) - Complex.log (y_minus T s t x + (x : ℂ) - xr))
      - (Complex.log (y_plus T s t x) - Complex.log (y_minus T s t x)))
    / csqrt (xr * kernel_d T s t x)

/-- The method `scalar_triangle::triangle_kernel(s, t)`. -/
noncomputable def triangle_kernel (gl : gauleg_rule) (T : scalar_triangle) (c : quadrature_cache)
    (s t : ℝ) : Except Fatal (ℂ × quadrature_cache) := do
  let c ← check_weights gl T.xN c
  let sum : ℂ := (List.range T.xN.toNat).foldl
    (fun (sum : ℂ) (i : ℕ) =>
      sum + ((c.weights.getD i 0 : ℝ) : ℂ) * kernel_integrand T s t (c.abscissas.getD i 0)) 0
  pure (sum, c)

/-- The method `scalar_triangle::eval_feynman(s)`. -/
noncomputable def eval_feynman (gl : gauleg_rule) (T : scalar_triangle) (c : quadrature_cache)
    (s : ℝ) : Except Fatal (ℂ × quadrature_cache) := do
  let c ← check_weights gl T.xN c
  let r ← (List.range T.xN.toNat).foldlM
    (fun (acc : ℂ × quadrature_cache) (i : ℕ) => do
      let tp : ℝ := T.t_thresh + Real.tan (Real.pi * acc.2.abscissas.getD i 0 / 2)
      let k ← triangle_kernel gl T acc.2 s tp
      let temp : ℂ := T.disc tp * k.1
      let temp : ℂ := temp * ((Real.pi / 2 : ℝ) : ℂ)
      let temp : ℂ := temp / (((Real.cos (Real.pi * k.2.abscissas.getD i 0 / 2)) ^ (2 : ℝ) : ℝ) : ℂ)
      pure (acc.1 + ((k.2.weights.getD i 0 : ℝ) : ℂ) * temp, k.2))
    (0, c)
  pure (r.1 / (Real.pi : ℂ), r.2)

/-- The method `scalar_triangle::Kacser(s)`. -/
noncomputable def Kacser (T : scalar_triangle) (s : ℝ) : ℂ :=
  csqrt ((((Real.sqrt s - T.p2) ^ (2 : ℝ) - T.p1 * T.p1 : ℝ) : ℂ) - ieps)
    * csqrt ((((Real.sqrt s + T.p2) ^ (2 : ℝ) - T.p1 * T.p1 : ℝ) : ℂ) - ieps)
    * csqrt (Kallen (s : ℂ) ((T.m1 * T.m1 : ℝ) : ℂ) ((T.m2 * T.m2 : ℝ) : ℂ))
    / (s : ℂ)

/-- The method `scalar_triangle::t_minus(s)`. -/
noncomputable def t_minus (T : scalar_triangle) (s : ℝ) : ℂ :=
  ((T.p1 * T.p1 : ℝ) : ℂ) + ieps + ((T.m1 * T.m1 : ℝ) : ℂ)
    - (((s - T.p2 * T.p2 + T.p1 * T.p1 : ℝ) : ℂ) + ieps)
        * ((s + T.m1 * T.m1 - T.m2 * T.m2 : ℝ) : ℂ) / ((2 * s : ℝ) : ℂ)
    - Kacser T s / 2

/-- The method `scalar_triangle::t_plus(s)`. -/
noncomputable def t_plus (T : scalar_triangle) (s : ℝ) : ℂ :=
  ((T.p1 * T.p1 : ℝ) : ℂ) + ieps + ((T.m1 * T.m1 : ℝ) : ℂ)
    - (((s - T.p2 * T.p2 + T.p1 * T.p1 : ℝ) : ℂ) + ieps)
        * ((s + T.m1 * T.m1 - T.m2 * T.m2 : ℝ) : ℂ) / ((2 * s : ℝ) : ℂ)
    + Kacser T s / 2

/-- The method `scalar_triangle::projection(s, tp)`. -/
noncomputable def projection (T : scalar_triangle) (s tp : ℝ) : ℂ :=
  (Complex.log ((tp : ℂ) - t_minus T s) - Complex.log ((tp : ℂ) - t_plus T s)) / Kacser T s

/-- The method `scalar_triangle::t_dispersion(s)`. -/
noncomputable def t_dispersion (gl : gauleg_rule) (T : scalar_triangle) (c : quadrature_cache)
    (s : ℝ) : Except Fatal (ℂ × quadrature_cache) := do
  let c ← check_weights gl T.xN c
  let sum : ℂ := (List.range T.xN.toNat).foldl
    (fun (sum : ℂ) (i : ℕ) =>
      let tp : ℝ := (T.t_thresh + EPS) + Real.tan (Real.pi * c.abscissas.getD i 0 / 2)
      let temp : ℂ := T.disc tp * projection T s tp
      let temp : ℂ := temp * ((Real.pi / 2 : ℝ) : ℂ)
      let temp : ℂ := temp / (((Real.cos (Real.pi * c.abscissas.getD i 0 / 2)) ^ (2 : ℝ) : ℝ) : ℂ)
      sum + ((c.weights.getD i 0 : ℝ) : ℂ) * temp) 0
  let sum : ℂ := sum / (Real.pi : ℂ)
  pure (csqrt (Kallen (s : ℂ) ((T.m1 * T.m1 : ℝ) : ℂ) ((T.m2 * T.m2 : ℝ) : ℂ)) * sum, c)

/-- The closed-form term `log_term` that `s_dispersion` adds back for the
subtracted pole. -/
noncomputable def s_dispersion_log_term (sub_point : ℂ) (s low high : ℝ) : ℂ :=
  ((Complex.log ((high : ℂ) - (s : ℂ) * xr) - ((Real.log high : ℝ) : ℂ))
      - (Complex.log ((low : ℂ) - (s : ℂ) * xr) - ((Real.log low : ℝ) : ℂ)))
    * (sub_point / (s : ℂ))

/-- The method `scalar_triangle::s_dispersion(s, low, high)`. -/
noncomputable def s_dispersion (gl : gauleg_rule) (T : scalar_triangle) (c : quadrature_cache)
    (s low high : ℝ) : Except Fatal (ℂ × quadrature_cache) := do
  let c : quadrature_cache :=
    { c with gauleg_calls := c.gauleg_calls ++ [⟨low, high, T.xN + 1, T.xN⟩] }
  let sub ← t_dispersion gl T c s
  let r ← (indices_from_one T.xN).foldlM
    (fun (acc : ℂ × quadrature_cache) (i : ℤ) => do
      let xi : ℝ := gl.x low high T.xN i
      let td ← t_dispersion gl T acc.2 xi
      let temp : ℂ := td.1 - sub.1
      let temp : ℂ := temp / ((xi : ℂ) * ((xi : ℂ) - (s : ℂ) - ieps))
      pure (acc.1 + ((gl.w low high T.xN i : ℝ) : ℂ) * temp, td.2))
    (0, sub.2)
  pure ((r.1 + s_dispersion_log_term sub.1 s low high) / (Real.pi : ℂ), r.2)

/-- The method `scalar_triangle::s_dispersion_inf(s, low)`. -/
noncomputable def s_dispersion_inf (gl : gauleg_rule) (T : scalar_triangle) (c : quadrature_cache)
    (s low : ℝ) : Except Fatal (ℂ × quadrature_cache) := do
  let c ← check_weights gl T.xN c
  let sub ← t_dispersion gl T c s
  let r ← (List.range T.xN.toNat).foldlM
    (fun (acc : ℂ × quadrature_cache) (i : ℕ) => do
      let sp : ℝ := tan_node low (acc.2.abscissas.getD i 0)
      let td ← t_dispersion gl T acc.2 sp
      let temp : ℂ := td.1 - sub.1
      let temp : ℂ := temp / ((sp : ℂ) * ((sp : ℂ) - (s : ℂ) - ieps))
      let temp : ℂ := temp * ((jacobian (td.2.abscissas.getD i 0) : ℝ) : ℂ)
      pure (acc.1 + ((td.2.weights.getD i 0 : ℝ) : ℂ) * temp, td.2))
    (0, sub.2)
  let log_term : ℂ := -sub.1 / (s : ℂ)
  let log_term : ℂ :=
    log_term * (Complex.log ((low : ℂ) - (s : ℂ) * xr) - ((Real.log low : ℝ) : ℂ))
  pure ((r.1 + log_term) / (Real.pi : ℂ), r.2)

/-- The method `scalar_triangle::eval_dispersive(s)`. -/
noncomputable def eval_dispersive (gl : gauleg_rule) (T : scalar_triangle) (c : quadrature_cache)
    (s : ℝ) : Except Fatal (ℂ × quadrature_cache) :=
  if T.p_thresh < T.s_thresh then
    s_dispersion_inf gl T c s (T.s_thresh + EPS)
  else do
    let temp ← s_dispersion gl T c s (T.s_thresh + EPS) (T.p_thresh - T.exc)
    let rest ← s_dispersion_inf gl T temp.2 s (T.p_thresh + T.exc)
    pure (temp.1 + rest.1, rest.2)

end scalar_triangle

/-! # Theorems -/

/-! ## Constants and the principal square root -/

theorem xr_eq : xr = 1 := rfl

theorem xi_eq : xi = Complex.I := rfl

theorem csqrt_mul_self (z : ℂ) : csqrt z * csqrt z = z := by
  have h := Complex.cpow_nat_inv_pow z (n := 2) (by norm_num)
  have e : csqrt z = z ^ (((2 : ℕ) : ℂ)⁻¹) := by
    unfold csqrt
    congr 1
    norm_num
  rw [e, ← pow_two]
  exact h

theorem csqrt_ne_zero {z : ℂ} (hz : z ≠ 0) : csqrt z ≠ 0 := by
  intro h
  apply hz
  rw [← csqrt_mul_self z, h, mul_zero]

/-! ## dF3_integrand -/

theorem mT_scratch (qns : quantum_numbers) (self : dF3_integrand) (id : ℤ) (s : ℝ) (d e : ℂ) :
    dF3_integrand.mT qns { self with denom := d, delta := e } id s
      = dF3_integrand.mT qns self id s := by
  rfl

theorem mT_supported (qns : quantum_numbers) (self : dF3_integrand) (id : ℤ) (s : ℝ)
    (h : dF3_integrand.supported_id id) :
    ∃ v, dF3_integrand.mT qns self id s = .ok (v,
      { self with
        denom := self.denom0 - ((self.x * self.y * s : ℝ) : ℂ)
        delta := self.delta0 - ((self.x * self.y * s : ℝ) : ℂ) }) := by
  rcases h with h | h | h | h | h | h | h <;> subst h <;>
    simp [dF3_integrand.mT, dF3_integrand.T, bind, Except.bind, pure, Except.pure]

/-- C1: for a supported wave code, `eval` returns the value of `mT(id, s)` when
`n = 0` and the difference of the values of `mT(id, s)` and `mT(id, 0.)` when
`n = 1`, both taken on the object as `update_fparams` left it, with
`id = qns->id()` and `s` the stored energy. -/
theorem dF3_integrand_eval_subtraction
    (update_fparams : dF3_integrand → ℝ → ℝ → ℝ → dF3_integrand)
    (qns : quantum_numbers) (self : dF3_integrand) (x y z : ℝ)
    (hid : dF3_integrand.supported_id qns.id) :
    (qns.n = 0 → ∃ v st,
        dF3_integrand.mT qns (update_fparams self x y z) qns.id (update_fparams self x y z).s
          = .ok (v, st)
        ∧ dF3_integrand.eval update_fparams qns self x y z = .ok (v, st))
    ∧ (qns.n = 1 → ∃ v1 st1 v0 st0,
        dF3_integrand.mT qns (update_fparams self x y z) qns.id (update_fparams self x y z).s
          = .ok (v1, st1)
        ∧ dF3_integrand.mT qns (update_fparams self x y z) qns.id 0 = .ok (v0, st0)
        ∧ dF3_integrand.eval update_fparams qns self x y z = .ok (v1 - v0, st0)) := by
  obtain ⟨v1, h1⟩ := mT_supported qns (update_fparams self x y z) qns.id
    (update_fparams self x y z).s hid
  obtain ⟨v0, h0⟩ := mT_supported qns (update_fparams self x y z) qns.id 0 hid
  refine ⟨fun hn => ⟨v1, _, h1, ?_⟩, fun hn => ⟨v1, _, v0, _, h1, h0, ?_⟩⟩
  · simp [dF3_integrand.eval, hn, h1]
  · have hlt : ¬ qns.n < 0 := by omega
    have hne : ¬ qns.n = 0 := by omega
    simp only [dF3_integrand.eval, hlt, hne, hn, if_true, if_false]
    rw [h1]
    simp only [bind, Except.bind]
    rw [mT_scratch, h0]
    rfl

/-- C1, at a concrete input: the s-wave scalar code with one subtraction. -/
theorem dF3_integrand_eval_subtraction_witness :
    dF3_integrand.supported_id (⟨0, 0, 0, 1, 0⟩ : quantum_numbers).id
    ∧ ((⟨0, 0, 0, 1, 0⟩ : quantum_numbers).n = 1 → ∃ v1 st1 v0 st0,
        dF3_integrand.mT ⟨0, 0, 0, 1, 0⟩ ⟨1, 1, 1, 1, 2, 2, 0, 0, 1, 1⟩ 0 1 = .ok (v1, st1)
        ∧ dF3_integrand.mT ⟨0, 0, 0, 1, 0⟩ ⟨1, 1, 1, 1, 2, 2, 0, 0, 1, 1⟩ 0 0 = .ok (v0, st0)
        ∧ dF3_integrand.eval (fun st x y z => { st with x := x, y := y, z := z })
            ⟨0, 0, 0, 1, 0⟩ ⟨1, 0, 0, 0, 2, 2, 0, 0, 1, 1⟩ 1 1 1 = .ok (v1 - v0, st0)) :=
  ⟨by decide,
    (dF3_integrand_eval_subtraction (fun st x y z => { st with x := x, y := y, z := z })
      ⟨0, 0, 0, 1, 0⟩ ⟨1, 0, 0, 0, 2, 2, 0, 0, 1, 1⟩ 1 1 1 (by decide)).2⟩

/-! ## projection_function -/

/-- C2, the d-wave slip: with `j = 2` and `jp = 1` no diagnostic is raised; `eval`
keeps the initial `result = 0.` and returns the number `0`. -/
theorem projection_function_eval_j2_jp1_returns (l n id : ℤ) (self : projection_function)
    (s t : ℝ) :
    projection_function.eval ⟨2, 1, l, n, id⟩ self s t = .ok 0 := by
  simp [projection_function.eval, bind, Except.bind, pure, Except.pure]

/-- Outside `j = 2`, every unsupported pair raises the diagnostic naming `j` and `jp`. -/
theorem projection_function_eval_unsupported (qns : quantum_numbers) (self : projection_function)
    (s t : ℝ) (h : ¬ projection_function.supported_pair qns.j qns.jp) (hj : qns.j ≠ 2) :
    projection_function.eval qns self s t
      = .error (Fatal.projection_combination_not_available qns.j qns.jp) := by
  unfold projection_function.supported_pair at h
  simp only [not_or, not_and] at h
  obtain ⟨h00, h01, h10, h11, _⟩ := h
  by_cases j0 : qns.j = 0
  · have a := h00 j0
    have b := h01 j0
    simp [projection_function.eval, bind, Except.bind, j0, a, b]
  · by_cases j1 : qns.j = 1
    · have a := h10 j1
      have b := h11 j1
      simp [projection_function.eval, bind, Except.bind, j1, a, b]
    · simp [projection_function.eval, bind, Except.bind, j0, j1, hj]

/-! ## Rational integrals -/

theorem inv_mem_slitPlane {z : ℂ} (hz : z ∈ Complex.slitPlane) : z⁻¹ ∈ Complex.slitPlane := by
  have h0 : z ≠ 0 := Complex.slitPlane_ne_zero hz
  have hn : 0 < Complex.normSq z := Complex.normSq_pos.mpr h0
  rw [Complex.mem_slitPlane_iff] at hz ⊢
  rw [Complex.inv_re, Complex.inv_im]
  rcases hz with h | h
  · left
    exact div_pos h hn
  · right
    exact div_ne_zero (neg_ne_zero.mpr h) (ne_of_gt hn)

theorem c_atan_arg_ne {w : ℂ} (h : (w + xi) / (w - xi) ∈ Complex.slitPlane) :
    w + xi ≠ 0 ∧ w - xi ≠ 0 := by
  have h0 : (w + xi) / (w - xi) ≠ 0 := Complex.slitPlane_ne_zero h
  constructor
  · intro e
    apply h0
    rw [e, zero_div]
  · intro e
    apply h0
    rw [e, div_zero]

theorem c_atan_hasDerivAt {f : ℝ → ℂ} {f' : ℂ} {y : ℝ} (hf : HasDerivAt f f' y)
    (hcut : (f y + xi) / (f y - xi) ∈ Complex.slitPlane) :
    HasDerivAt (fun t : ℝ => c_atan (f t)) (f' / (1 + f y * f y)) y := by
  obtain ⟨hp, hm⟩ := c_atan_arg_ne hcut
  have hq : HasDerivAt (fun t : ℝ => (f t + xi) / (f t - xi))
      ((f' * (f y - xi) - (f y + xi) * f') / (f y - xi) ^ 2) y :=
    (hf.add_const xi).div (hf.sub_const xi) hm
  have hl := (hq.clog_real hcut).div_const (-2 * xi)
  have hI : xi * xi = -1 := by rw [xi_eq]; exact Complex.I_mul_I
  have h1 : 1 + f y * f y ≠ 0 := by
    have : 1 + f y * f y = (f y + xi) * (f y - xi) := by
      linear_combination hI
    rw [this]
    exact mul_ne_zero hp hm
  have hxi : xi ≠ 0 := by rw [xi_eq]; exact Complex.I_ne_zero
  unfold c_atan
  convert hl using 1
  field_simp
  linear_combination (2 * xi * f' * (f y - xi)) * hI


/-- C3: `ri_poly1` is an antiderivative of `1/(a y^2 + b y + c)`. For `a ≠ 0`,
`4ac - b^2 ≠ 0`, and a real `y0` where the quadratic is non-zero and the logarithm
inside `c_atan` is off its branch cut, `y ↦ ri_poly1(y, a, b, c)` is differentiable
at `y0` with derivative `1/(a y0^2 + b y0 + c)`. -/
theorem ri_poly1_hasDerivAt (a b c : ℂ) (y0 : ℝ) (ha : a ≠ 0) (hd : 4 * a * c - b * b ≠ 0)
    (hP : a * (y0 : ℂ) ^ 2 + b * (y0 : ℂ) + c ≠ 0)
    (hcut : ((2 * a * (y0 : ℂ) + b) / csqrt ((4 * a * c - b * b) * xr) + xi)
      / ((2 * a * (y0 : ℂ) + b) / csqrt ((4 * a * c - b * b) * xr) - xi) ∈ Complex.slitPlane) :
    HasDerivAt (fun y : ℝ => ri_poly1 y a b c) (1 / (a * (y0 : ℂ) ^ 2 + b * (y0 : ℂ) + c)) y0 := by
  have hr : csqrt ((4 * a * c - b * b) * xr) * csqrt ((4 * a * c - b * b) * xr)
      = 4 * a * c - b * b := by
    rw [csqrt_mul_self, xr_eq, mul_one]
  have hr0 : csqrt ((4 * a * c - b * b) * xr) ≠ 0 := by
    apply csqrt_ne_zero
    rw [xr_eq, mul_one]
    exact hd
  show HasDerivAt (fun y : ℝ => c_atan ((2 * a * (y : ℂ) + b) / csqrt ((4 * a * c - b * b) * xr))
    * (2 / csqrt ((4 * a * c - b * b) * xr))) _ y0
  generalize csqrt ((4 * a * c - b * b) * xr) = r at hr hr0 hcut ⊢
  have hy : HasDerivAt (fun y : ℝ => (y : ℂ)) 1 y0 := Complex.ofRealCLM.hasDerivAt
  have hf : HasDerivAt (fun y : ℝ => (2 * a * (y : ℂ) + b) / r) (2 * a * 1 / r) y0 :=
    ((hy.const_mul (2 * a)).add_const b).div_const r
  have hc := c_atan_hasDerivAt (f := fun y : ℝ => (2 * a * (y : ℂ) + b) / r) hf hcut
  have h := hc.mul_const (2 / r)
  have hw : r * r + (2 * a * (y0 : ℂ) + b) * (2 * a * (y0 : ℂ) + b)
      = 4 * a * (a * (y0 : ℂ) ^ 2 + b * (y0 : ℂ) + c) := by
    linear_combination hr
  have hw0 : r * r + (2 * a * (y0 : ℂ) + b) * (2 * a * (y0 : ℂ) + b) ≠ 0 := by
    rw [hw]
    exact mul_ne_zero (mul_ne_zero (by norm_num) ha) hP
  have e : 2 * a * 1 / r / (1 + (2 * a * (y0 : ℂ) + b) / r * ((2 * a * (y0 : ℂ) + b) / r)) * (2 / r)
      = 1 / (a * (y0 : ℂ) ^ 2 + b * (y0 : ℂ) + c) := by
    field_simp
    linear_combination (-(r * r)) * hw
  rw [← e]
  exact h


theorem quadratic_hasDerivAt (a b c : ℂ) (y0 : ℝ) :
    HasDerivAt (fun y : ℝ => a * (y : ℂ) * (y : ℂ) + b * (y : ℂ) + c)
      (2 * a * (y0 : ℂ) + b) y0 := by
  have hy : HasDerivAt (fun y : ℝ => (y : ℂ)) 1 y0 := Complex.ofRealCLM.hasDerivAt
  have h := (((hy.const_mul a).mul hy).add (hy.const_mul b)).add_const c
  have e : a * 1 * (y0 : ℂ) + a * (y0 : ℂ) * 1 + b * 1 = 2 * a * (y0 : ℂ) + b := by ring
  rw [← e]
  exact h

/-- C4: `ri_poly2` is an antiderivative of `(e y^2 + f y + g)/(a y^2 + b y + c)`.
For `a ≠ 0`, `b^2 - 4ac ≠ 0`, and a real `y0` where the quadratic is non-zero and off
the branch cut of the logarithm, as is the logarithm inside `c_atan`, the derivative
of `term1 + term2 + term3` at `y0` is `(e y0^2 + f y0 + g)/(a y0^2 + b y0 + c)`. -/
theorem ri_poly2_hasDerivAt (a b c e f g : ℂ) (y0 : ℝ) (ha : a ≠ 0)
    (hd : b * b - 4 * a * c ≠ 0)
    (hP : a * (y0 : ℂ) ^ 2 + b * (y0 : ℂ) + c ≠ 0)
    (hPcut : a * (y0 : ℂ) ^ 2 + b * (y0 : ℂ) + c ∈ Complex.slitPlane)
    (hcut : ((2 * a * (y0 : ℂ) + b) / csqrt (-(b * b - 4 * a * c)) + xi)
      / ((2 * a * (y0 : ℂ) + b) / csqrt (-(b * b - 4 * a * c)) - xi) ∈ Complex.slitPlane) :
    HasDerivAt (fun y : ℝ => ri_poly2 y a b c e f g)
      ((e * (y0 : ℂ) ^ 2 + f * (y0 : ℂ) + g) / (a * (y0 : ℂ) ^ 2 + b * (y0 : ℂ) + c)) y0 := by
  have hr : csqrt (-(b * b - 4 * a * c)) * csqrt (-(b * b - 4 * a * c))
      = -(b * b - 4 * a * c) := csqrt_mul_self _
  have hr0 : csqrt (-(b * b - 4 * a * c)) ≠ 0 := csqrt_ne_zero (neg_ne_zero.mpr hd)
  show HasDerivAt (fun y : ℝ =>
    c_atan ((2 * a * (y : ℂ) + b) / csqrt (-(b * b - 4 * a * c)))
        * (b * b * e - a * f * b + 2 * a * (a * g - c * e)) / (a * a * csqrt (-(b * b - 4 * a * c)))
      + Complex.log (a * (y : ℂ) * (y : ℂ) + b * (y : ℂ) + c * xr) * (a * f - b * e) / (2 * a * a)
      + e * (y : ℂ) / a) _ y0
  generalize csqrt (-(b * b - 4 * a * c)) = r at hr hr0 hcut ⊢
  have hy : HasDerivAt (fun y : ℝ => (y : ℂ)) 1 y0 := Complex.ofRealCLM.hasDerivAt
  have hf : HasDerivAt (fun y : ℝ => (2 * a * (y : ℂ) + b) / r) (2 * a * 1 / r) y0 :=
    ((hy.const_mul (2 * a)).add_const b).div_const r
  have hc := c_atan_hasDerivAt (f := fun y : ℝ => (2 * a * (y : ℂ) + b) / r) hf hcut
  have hPe : a * (y0 : ℂ) * (y0 : ℂ) + b * (y0 : ℂ) + c * xr
      = a * (y0 : ℂ) ^ 2 + b * (y0 : ℂ) + c := by
    rw [xr_eq]; ring
  have hl := (quadratic_hasDerivAt a b (c * xr) y0).clog_real (by rw [hPe]; exact hPcut)
  have h := (((hc.mul_const (b * b * e - a * f * b + 2 * a * (a * g - c * e))).div_const
    (a * a * r)).add ((hl.mul_const (a * f - b * e)).div_const (2 * a * a))).add
    ((hy.const_mul e).div_const a)
  have hw : r * r + (2 * a * (y0 : ℂ) + b) * (2 * a * (y0 : ℂ) + b)
      = 4 * a * (a * (y0 : ℂ) ^ 2 + b * (y0 : ℂ) + c) := by
    linear_combination hr
  have hw0 : r * r + (2 * a * (y0 : ℂ) + b) * (2 * a * (y0 : ℂ) + b) ≠ 0 := by
    rw [hw]
    exact mul_ne_zero (mul_ne_zero (by norm_num) ha) hP
  have hcore : 2 * a * 1 / r / (1 + (2 * a * (y0 : ℂ) + b) / r * ((2 * a * (y0 : ℂ) + b) / r))
      = r / (2 * (a * (y0 : ℂ) ^ 2 + b * (y0 : ℂ) + c)) := by
    field_simp
    linear_combination (-(r * r)) * hw
  have hval : 2 * a * 1 / r / (1 + (2 * a * (y0 : ℂ) + b) / r * ((2 * a * (y0 : ℂ) + b) / r))
        * (b * b * e - a * f * b + 2 * a * (a * g - c * e)) / (a * a * r)
      + (2 * a * (y0 : ℂ) + b) / (a * (y0 : ℂ) * (y0 : ℂ) + b * (y0 : ℂ) + c * xr)
        * (a * f - b * e) / (2 * a * a)
      + e * 1 / a
      = (e * (y0 : ℂ) ^ 2 + f * (y0 : ℂ) + g) / (a * (y0 : ℂ) ^ 2 + b * (y0 : ℂ) + c) := by
    rw [hPe, hcore]
    have e1 : r / (2 * (a * (y0 : ℂ) ^ 2 + b * (y0 : ℂ) + c))
          * (b * b * e - a * f * b + 2 * a * (a * g - c * e)) / (a * a * r)
        = (b * b * e - a * f * b + 2 * a * (a * g - c * e))
          / (2 * a * a * (a * (y0 : ℂ) ^ 2 + b * (y0 : ℂ) + c)) := by
      field_simp
      ring
    have e2 : (2 * a * (y0 : ℂ) + b) / (a * (y0 : ℂ) ^ 2 + b * (y0 : ℂ) + c)
          * (a * f - b * e) / (2 * a * a)
        = (2 * a * (y0 : ℂ) + b) * (a * f - b * e)
          / (2 * a * a * (a * (y0 : ℂ) ^ 2 + b * (y0 : ℂ) + c)) := by
      rw [div_mul_eq_mul_div, div_div]
      congr 1
      ring
    have e3 : e * 1 / a = 2 * a * e * (a * (y0 : ℂ) ^ 2 + b * (y0 : ℂ) + c)
          / (2 * a * a * (a * (y0 : ℂ) ^ 2 + b * (y0 : ℂ) + c)) := by
      field_simp
      ring
    have e4 : (e * (y0 : ℂ) ^ 2 + f * (y0 : ℂ) + g) / (a * (y0 : ℂ) ^ 2 + b * (y0 : ℂ) + c)
        = 2 * a * a * (e * (y0 : ℂ) ^ 2 + f * (y0 : ℂ) + g)
          / (2 * a * a * (a * (y0 : ℂ) ^ 2 + b * (y0 : ℂ) + c)) := by
      field_simp
      ring
    rw [e1, e2, e3, e4, ← add_div, ← add_div]
    congr 1
    ring
  rw [← hval]
  exact h


theorem atan_core (a b c r : ℂ) (y0 : ℝ) (ha : a ≠ 0) (hr0 : r ≠ 0)
    (hP : a * (y0 : ℂ) ^ 2 + b * (y0 : ℂ) + c ≠ 0) (hr : r * r = 4 * a * c - b * b) :
    2 * a * 1 / r / (1 + (2 * a * (y0 : ℂ) + b) / r * ((2 * a * (y0 : ℂ) + b) / r))
      = r / (2 * (a * (y0 : ℂ) ^ 2 + b * (y0 : ℂ) + c)) := by
  have hw : r * r + (2 * a * (y0 : ℂ) + b) * (2 * a * (y0 : ℂ) + b)
      = 4 * a * (a * (y0 : ℂ) ^ 2 + b * (y0 : ℂ) + c) := by
    linear_combination hr
  have hw0 : r * r + (2 * a * (y0 : ℂ) + b) * (2 * a * (y0 : ℂ) + b) ≠ 0 := by
    rw [hw]
    exact mul_ne_zero (mul_ne_zero (by norm_num) ha) hP
  field_simp
  linear_combination (-(r * r)) * hw

/-- C5: `ri_log1` is an antiderivative of `log(1/(a y^2 + b y + c))`. For `a ≠ 0`,
`b^2 - 4ac ≠ 0`, and a real `y0` where the quadratic is non-zero and off the branch
cut of the logarithm, as is the logarithm inside `c_atan`, the derivative of the
four-term sum at `y0` is `log(1/(a y0^2 + b y0 + c))`. -/
theorem ri_log1_hasDerivAt (a b c : ℂ) (y0 : ℝ) (ha : a ≠ 0)
    (hd : b * b - 4 * a * c ≠ 0)
    (hP : a * (y0 : ℂ) ^ 2 + b * (y0 : ℂ) + c ≠ 0)
    (hPcut : a * (y0 : ℂ) ^ 2 + b * (y0 : ℂ) + c ∈ Complex.slitPlane)
    (hcut : ((2 * a * (y0 : ℂ) + b) / csqrt (-(b * b - 4 * a * c) * xr) + xi)
      / ((2 * a * (y0 : ℂ) + b) / csqrt (-(b * b - 4 * a * c) * xr) - xi) ∈ Complex.slitPlane) :
    HasDerivAt (fun y : ℝ => ri_log1 y a b c)
      (Complex.log (1 / (a * (y0 : ℂ) ^ 2 + b * (y0 : ℂ) + c))) y0 := by
  have hr : csqrt (-(b * b - 4 * a * c) * xr) * csqrt (-(b * b - 4 * a * c) * xr)
      = 4 * a * c - b * b := by
    rw [csqrt_mul_self, xr_eq]; ring
  have hr0 : csqrt (-(b * b - 4 * a * c) * xr) ≠ 0 := by
    apply csqrt_ne_zero
    rw [xr_eq, mul_one]
    exact neg_ne_zero.mpr hd
  show HasDerivAt (fun y : ℝ =>
    -c_atan ((2 * a * (y : ℂ) + b) / csqrt (-(b * b - 4 * a * c) * xr))
        * (csqrt (-(b * b - 4 * a * c) * xr) / a)
      + (y : ℂ) * Complex.log (xr / (a * (y : ℂ) * (y : ℂ) + b * (y : ℂ) + c * xr))
      + Complex.log (a * (y : ℂ) * (y : ℂ) + b * (y : ℂ) + c) * (-b / (2 * a))
      + 2 * (y : ℂ)) _ y0
  generalize csqrt (-(b * b - 4 * a * c) * xr) = r at hr hr0 hcut ⊢
  have hy : HasDerivAt (fun y : ℝ => (y : ℂ)) 1 y0 := Complex.ofRealCLM.hasDerivAt
  have hf : HasDerivAt (fun y : ℝ => (2 * a * (y : ℂ) + b) / r) (2 * a * 1 / r) y0 :=
    ((hy.const_mul (2 * a)).add_const b).div_const r
  have hc := c_atan_hasDerivAt (f := fun y : ℝ => (2 * a * (y : ℂ) + b) / r) hf hcut
  have hPe : a * (y0 : ℂ) * (y0 : ℂ) + b * (y0 : ℂ) + c * xr
      = a * (y0 : ℂ) ^ 2 + b * (y0 : ℂ) + c := by
    rw [xr_eq]; ring
  have hPe3 : a * (y0 : ℂ) * (y0 : ℂ) + b * (y0 : ℂ) + c
      = a * (y0 : ℂ) ^ 2 + b * (y0 : ℂ) + c := by
    ring
  have hinv : xr / (a * (y0 : ℂ) * (y0 : ℂ) + b * (y0 : ℂ) + c * xr) ∈ Complex.slitPlane := by
    rw [hPe, xr_eq, one_div]
    exact inv_mem_slitPlane hPcut
  have hq := (hasDerivAt_const y0 xr).div (quadratic_hasDerivAt a b (c * xr) y0)
    (by rw [hPe]; exact hP)
  have hl2 := hq.clog_real hinv
  have hl3 := (quadratic_hasDerivAt a b c y0).clog_real (by rw [hPe3]; exact hPcut)
  have h := (((hc.neg.mul_const (r / a)).add (hy.mul hl2)).add
    (hl3.mul_const (-b / (2 * a)))).add (hy.const_mul 2)
  have hcore := atan_core a b c r y0 ha hr0 hP hr
  have hrest : -(r / (2 * (a * (y0 : ℂ) ^ 2 + b * (y0 : ℂ) + c))) * (r / a)
      + (y0 : ℂ) * ((0 * (a * (y0 : ℂ) ^ 2 + b * (y0 : ℂ) + c) - 1 * (2 * a * (y0 : ℂ) + b))
          / (a * (y0 : ℂ) ^ 2 + b * (y0 : ℂ) + c) ^ 2
          / (1 / (a * (y0 : ℂ) ^ 2 + b * (y0 : ℂ) + c)))
      + (2 * a * (y0 : ℂ) + b) / (a * (y0 : ℂ) ^ 2 + b * (y0 : ℂ) + c) * (-b / (2 * a))
      + 2 * 1 = 0 := by
    obtain ⟨P, hPd⟩ : ∃ P : ℂ, P = a * (y0 : ℂ) ^ 2 + b * (y0 : ℂ) + c := ⟨_, rfl⟩
    rw [← hPd] at hP ⊢
    have e1 : -(r / (2 * P)) * (r / a) = -(r * r) / (2 * a * P) := by
      field_simp
      ring
    have e2 : (y0 : ℂ) * ((0 * P - 1 * (2 * a * (y0 : ℂ) + b)) / P ^ 2 / (1 / P))
        = -(2 * a * (y0 : ℂ) * (2 * a * (y0 : ℂ) + b)) / (2 * a * P) := by
      field_simp
      ring
    have e3 : (2 * a * (y0 : ℂ) + b) / P * (-b / (2 * a))
        = -(b * (2 * a * (y0 : ℂ) + b)) / (2 * a * P) := by
      field_simp
      ring
    have e4 : (2 : ℂ) * 1 = 4 * a * P / (2 * a * P) := by
      field_simp
      ring
    rw [e1, e2, e3, e4, ← add_div, ← add_div, ← add_div, div_eq_zero_iff]
    left
    linear_combination -hr + 4 * a * hPd
  have hval : -(2 * a * 1 / r / (1 + (2 * a * (y0 : ℂ) + b) / r * ((2 * a * (y0 : ℂ) + b) / r)))
        * (r / a)
      + (1 * Complex.log (xr / (a * (y0 : ℂ) * (y0 : ℂ) + b * (y0 : ℂ) + c * xr))
        + (y0 : ℂ) * ((0 * (a * (y0 : ℂ) * (y0 : ℂ) + b * (y0 : ℂ) + c * xr)
            - xr * (2 * a * (y0 : ℂ) + b))
          / (a * (y0 : ℂ) * (y0 : ℂ) + b * (y0 : ℂ) + c * xr) ^ 2
          / (xr / (a * (y0 : ℂ) * (y0 : ℂ) + b * (y0 : ℂ) + c * xr))))
      + (2 * a * (y0 : ℂ) + b) / (a * (y0 : ℂ) * (y0 : ℂ) + b * (y0 : ℂ) + c) * (-b / (2 * a))
      + 2 * 1
      = Complex.log (1 / (a * (y0 : ℂ) ^ 2 + b * (y0 : ℂ) + c)) := by
    rw [hPe, hPe3, hcore, xr_eq]
    linear_combination hrest
  rw [← hval]
  exact h

theorem csqrt_one : csqrt 1 = 1 := by
  simp [csqrt]

theorem one_add_I_div : ((1 : ℂ) + xi) / (1 - xi) = Complex.I := by
  rw [xi_eq]
  have h : (1 : ℂ) - Complex.I ≠ 0 := by
    intro h
    have := congrArg Complex.re h
    simp at this
  rw [div_eq_iff h]
  ring_nf
  rw [Complex.I_sq]
  ring

theorem I_mem_slitPlane : Complex.I ∈ Complex.slitPlane := by
  rw [Complex.mem_slitPlane_iff]
  right
  simp

theorem witness_cut (r : ℂ) (hr : r = 1) :
    ((2 * 1 * (((1 / 2 : ℝ) : ℝ) : ℂ) + 0) / r + xi) / ((2 * 1 * (((1 / 2 : ℝ) : ℝ) : ℂ) + 0) / r - xi)
      ∈ Complex.slitPlane := by
  have e : (2 * 1 * (((1 / 2 : ℝ) : ℝ) : ℂ) + 0) / r = 1 := by
    rw [hr]
    push_cast
    norm_num
  rw [e, one_add_I_div]
  exact I_mem_slitPlane

theorem witness_quadratic_ne :
    (1 : ℂ) * (((1 / 2 : ℝ) : ℝ) : ℂ) ^ 2 + 0 * (((1 / 2 : ℝ) : ℝ) : ℂ) + 1 / 4 ≠ 0 := by
  push_cast
  norm_num

theorem witness_quadratic_mem :
    (1 : ℂ) * (((1 / 2 : ℝ) : ℝ) : ℂ) ^ 2 + 0 * (((1 / 2 : ℝ) : ℝ) : ℂ) + 1 / 4
      ∈ Complex.slitPlane := by
  have e : (1 : ℂ) * (((1 / 2 : ℝ) : ℝ) : ℂ) ^ 2 + 0 * (((1 / 2 : ℝ) : ℝ) : ℂ) + 1 / 4
      = (((1 / 2 : ℝ) : ℝ) : ℂ) := by
    push_cast
    norm_num
  rw [e, Complex.ofReal_mem_slitPlane]
  norm_num

/-- C3, at `a = 1`, `b = 0`, `c = 1/4`, `y0 = 1/2`. -/
theorem ri_poly1_hasDerivAt_witness :
    HasDerivAt (fun y : ℝ => ri_poly1 y 1 0 (1 / 4))
      (1 / (1 * (((1 / 2 : ℝ) : ℝ) : ℂ) ^ 2 + 0 * (((1 / 2 : ℝ) : ℝ) : ℂ) + 1 / 4)) (1 / 2) :=
  ri_poly1_hasDerivAt 1 0 (1 / 4) (1 / 2) one_ne_zero (by norm_num) witness_quadratic_ne
    (witness_cut _ (by
      have e : ((4 : ℂ) * 1 * (1 / 4) - 0 * 0) * xr = 1 := by
        rw [xr_eq]; norm_num
      rw [e, csqrt_one]))

/-- C4, at `a = 1`, `b = 0`, `c = 1/4`, `e = 1`, `f = 2`, `g = 3`, `y0 = 1/2`. -/
theorem ri_poly2_hasDerivAt_witness :
    HasDerivAt (fun y : ℝ => ri_poly2 y 1 0 (1 / 4) 1 2 3)
      ((1 * (((1 / 2 : ℝ) : ℝ) : ℂ) ^ 2 + 2 * (((1 / 2 : ℝ) : ℝ) : ℂ) + 3)
        / (1 * (((1 / 2 : ℝ) : ℝ) : ℂ) ^ 2 + 0 * (((1 / 2 : ℝ) : ℝ) : ℂ) + 1 / 4)) (1 / 2) :=
  ri_poly2_hasDerivAt 1 0 (1 / 4) 1 2 3 (1 / 2) one_ne_zero (by norm_num) witness_quadratic_ne
    witness_quadratic_mem
    (witness_cut _ (by
      have e : -((0 : ℂ) * 0 - 4 * 1 * (1 / 4)) = 1 := by norm_num
      rw [e, csqrt_one]))

/-- C5, at `a = 1`, `b = 0`, `c = 1/4`, `y0 = 1/2`. -/
theorem ri_log1_hasDerivAt_witness :
    HasDerivAt (fun y : ℝ => ri_log1 y 1 0 (1 / 4))
      (Complex.log (1 / (1 * (((1 / 2 : ℝ) : ℝ) : ℂ) ^ 2 + 0 * (((1 / 2 : ℝ) : ℝ) : ℂ) + 1 / 4)))
      (1 / 2) :=
  ri_log1_hasDerivAt 1 0 (1 / 4) (1 / 2) one_ne_zero (by norm_num) witness_quadratic_ne
    witness_quadratic_mem
    (witness_cut _ (by
      have e : -((0 : ℂ) * 0 - 4 * 1 * (1 / 4)) * xr = 1 := by
        rw [xr_eq]; norm_num
      rw [e, csqrt_one]))

/-- C6, the value at `1`: the logarithm formula of `c_atan` gives `-π/4` there, not
`arctan 1 = π/4`. -/
theorem c_atan_one :
    c_atan 1 = -((Real.pi : ℂ) / 4) ∧ c_atan 1 ≠ ((Real.arctan 1 : ℝ) : ℂ) := by
  have hI : Complex.I ≠ 0 := Complex.I_ne_zero
  have h : c_atan 1 = -((Real.pi : ℂ) / 4) := by
    unfold c_atan
    rw [one_add_I_div, Complex.log_I, xi_eq]
    field_simp
    ring
  refine ⟨h, ?_⟩
  rw [h, Real.arctan_one]
  intro e
  have e2 := congrArg Complex.re e
  simp only [Complex.neg_re, Complex.ofReal_re] at e2
  have e3 : ((Real.pi : ℂ) / 4).re = Real.pi / 4 := by
    rw [show ((Real.pi : ℂ) / 4) = ((Real.pi / 4 : ℝ) : ℂ) by push_cast; ring]
    exact Complex.ofReal_re _
  rw [e3] at e2
  linarith [Real.pi_pos]

/-! ## The values of `c_atan` on the real line -/

theorem c_atan_quotient (z : ℝ) :
    ((z : ℂ) + xi) / ((z : ℂ) - xi)
      = ((Real.cos (Real.pi - 2 * Real.arctan z) : ℝ) : ℂ)
        + ((Real.sin (Real.pi - 2 * Real.arctan z) : ℝ) : ℂ) * Complex.I := by
  have hpos : 0 < 1 + z ^ 2 := by positivity
  have hc : Real.cos (Real.pi - 2 * Real.arctan z) = (z ^ 2 - 1) / (1 + z ^ 2) := by
    rw [Real.cos_pi_sub, Real.cos_two_mul, Real.cos_sq_arctan]
    field_simp
    ring
  have hs : Real.sin (Real.pi - 2 * Real.arctan z) = 2 * z / (1 + z ^ 2) := by
    rw [Real.sin_pi_sub, Real.sin_two_mul, Real.sin_arctan, Real.cos_arctan]
    have hsq : 0 < Real.sqrt (1 + z ^ 2) := Real.sqrt_pos.mpr hpos
    have hmul : Real.sqrt (1 + z ^ 2) * Real.sqrt (1 + z ^ 2) = 1 + z ^ 2 :=
      Real.mul_self_sqrt (le_of_lt hpos)
    field_simp
  have hden : (z : ℂ) - xi ≠ 0 := by
    intro h
    have := congrArg Complex.im h
    simp [xi] at this
  have hposc : ((1 : ℂ) + (z : ℂ) ^ 2) ≠ 0 := by
    have : ((1 : ℂ) + (z : ℂ) ^ 2) = ((1 + z ^ 2 : ℝ) : ℂ) := by push_cast; ring
    rw [this]
    exact Complex.ofReal_ne_zero.mpr (ne_of_gt hpos)
  rw [hc, hs, div_eq_iff hden, xi_eq]
  push_cast
  field_simp
  ring_nf
  rw [Complex.I_sq]
  ring

theorem c_atan_of_angle (z : ℝ)
    (θ : ℝ) (hθ : θ ∈ Set.Ioc (-Real.pi) Real.pi)
    (h : ((z : ℂ) + xi) / ((z : ℂ) - xi)
      = ((Real.cos θ : ℝ) : ℂ) + ((Real.sin θ : ℝ) : ℂ) * Complex.I) :
    c_atan (z : ℂ) = ((-(θ / 2) : ℝ) : ℂ) := by
  unfold c_atan
  rw [h]
  have ha : Complex.arg (((Real.cos θ : ℝ) : ℂ) + ((Real.sin θ : ℝ) : ℂ) * Complex.I) = θ := by
    have := Complex.arg_cos_add_sin_mul_I hθ
    simpa using this
  have hb : Complex.abs (((Real.cos θ : ℝ) : ℂ) + ((Real.sin θ : ℝ) : ℂ) * Complex.I) = 1 := by
    simp
  rw [Complex.log, ha, hb, Real.log_one, xi_eq]
  have hI : Complex.I ≠ 0 := Complex.I_ne_zero
  push_cast
  field_simp
  ring

/-- On the non-negative reals `c_atan` is the arctangent lowered by `π/2`. -/
theorem c_atan_real_nonneg (z : ℝ) (hz : 0 ≤ z) :
    c_atan (z : ℂ) = ((Real.arctan z - Real.pi / 2 : ℝ) : ℂ) := by
  have h1 := Real.arctan_lt_pi_div_two z
  have h2 : 0 ≤ Real.arctan z := by
    rw [← Real.arctan_zero]
    exact Real.arctan_strictMono.monotone hz
  rw [c_atan_of_angle z (Real.pi - 2 * Real.arctan z)
    ⟨by linarith [Real.pi_pos], by linarith⟩ (c_atan_quotient z)]
  congr 1
  ring

/-- On the negative reals `c_atan` is the arctangent raised by `π/2`. -/
theorem c_atan_real_neg (z : ℝ) (hz : z < 0) :
    c_atan (z : ℂ) = ((Real.arctan z + Real.pi / 2 : ℝ) : ℂ) := by
  have h1 := Real.neg_pi_div_two_lt_arctan z
  have h2 : Real.arctan z < 0 := by
    rw [← Real.arctan_zero]
    exact Real.arctan_strictMono hz
  have hq : ((z : ℂ) + xi) / ((z : ℂ) - xi)
      = ((Real.cos (-Real.pi - 2 * Real.arctan z) : ℝ) : ℂ)
        + ((Real.sin (-Real.pi - 2 * Real.arctan z) : ℝ) : ℂ) * Complex.I := by
    rw [c_atan_quotient z]
    have e : -Real.pi - 2 * Real.arctan z = (Real.pi - 2 * Real.arctan z) - 2 * Real.pi := by ring
    rw [e, Real.cos_sub_two_pi, Real.sin_sub_two_pi]
  rw [c_atan_of_angle z (-Real.pi - 2 * Real.arctan z) ⟨by linarith, by linarith [Real.pi_pos]⟩ hq]
  congr 1
  ring

/-! ## The quadrature cache -/

theorem indices_from_one_length (xN : ℤ) :
    (scalar_triangle.indices_from_one xN).length = xN.toNat := by
  simp [scalar_triangle.indices_from_one]

theorem check_weights_generated (gl : gauleg_rule) (xN : ℤ) (c : quadrature_cache)
    (h : c.WG_GENERATED = true) : scalar_triangle.check_weights gl xN c = .ok c := by
  simp [scalar_triangle.check_weights, h]

theorem check_weights_fresh (gl : gauleg_rule) (xN : ℤ) (c : quadrature_cache)
    (h : c.WG_GENERATED = false) (hN : 0 ≤ xN) :
    scalar_triangle.check_weights gl xN c = .ok
      ⟨true, (scalar_triangle.indices_from_one xN).map (fun i => gl.w 0 1 (xN + 1) i),
        (scalar_triangle.indices_from_one xN).map (fun i => gl.x 0 1 (xN + 1) i),
        c.gauleg_calls ++ [⟨0, 1, xN + 1, xN + 1⟩]⟩ := by
  have hl : ((xN.toNat : ℕ) : ℤ) = xN := Int.toNat_of_nonneg hN
  simp [scalar_triangle.check_weights, h, indices_from_one_length, hl]

theorem check_weights_ok_generated (gl : gauleg_rule) (xN : ℤ) (c c1 : quadrature_cache)
    (h : scalar_triangle.check_weights gl xN c = .ok c1) : c1.WG_GENERATED = true := by
  unfold scalar_triangle.check_weights at h
  by_cases hg : c.WG_GENERATED = false
  · rw [if_pos hg] at h
    dsimp only at h
    split at h
    · cases h
    · cases h
      rfl
  · rw [if_neg hg] at h
    cases h
    simpa using hg

/-- C7, at `xN = 2`: from the not-generated state `check_weights` asks `gauleg` for
the rule of order `3` with scratch arrays of length `3`, and caches the entries
`1, 2` of that rule; the order handed over is `xN + 1`, not `xN`. -/
theorem check_weights_order_passed (gl : gauleg_rule) (ws xs : List ℝ)
    (calls : List gauleg_call) :
    scalar_triangle.check_weights gl 2 ⟨false, ws, xs, calls⟩ = .ok
      ⟨true, [gl.w 0 1 3 1, gl.w 0 1 3 2], [gl.x 0 1 3 1, gl.x 0 1 3 2],
        calls ++ [⟨0, 1, 3, 3⟩]⟩ := by
  rw [check_weights_fresh gl 2 ⟨false, ws, xs, calls⟩ rfl (by norm_num)]
  have e : scalar_triangle.indices_from_one 2 = [1, 2] := by
    decide
  rw [e]
  norm_num

/-- C10: `check_weights` is idempotent. From any cache state a second call leaves
the state (the ghost log of `gauleg` invocations included) as the first call left
it; a call made with `WG_GENERATED` already true changes nothing and invokes
`gauleg` not at all; and for `xN ≥ 0` the first call does return. -/
theorem check_weights_idempotent (gl : gauleg_rule) (xN : ℤ) (c : quadrature_cache) :
    (scalar_triangle.check_weights gl xN c >>= scalar_triangle.check_weights gl xN)
        = scalar_triangle.check_weights gl xN c
    ∧ (c.WG_GENERATED = true → scalar_triangle.check_weights gl xN c = .ok c)
    ∧ (0 ≤ xN → ∃ c1, scalar_triangle.check_weights gl xN c = .ok c1
        ∧ scalar_triangle.check_weights gl xN c1 = .ok c1
        ∧ c1.gauleg_calls.length ≤ c.gauleg_calls.length + 1) := by
  refine ⟨?_, check_weights_generated gl xN c, ?_⟩
  · cases hc : scalar_triangle.check_weights gl xN c with
    | error e => rfl
    | ok c1 =>
      show scalar_triangle.check_weights gl xN c1 = .ok c1
      exact check_weights_generated gl xN c1 (check_weights_ok_generated gl xN c c1 hc)
  · intro hN
    by_cases hg : c.WG_GENERATED = false
    · refine ⟨_, check_weights_fresh gl xN c hg hN, check_weights_generated gl xN _ rfl, ?_⟩
      simp
    · have hg' : c.WG_GENERATED = true := by simpa using hg
      exact ⟨c, check_weights_generated gl xN c hg', check_weights_generated gl xN c hg',
        Nat.le_succ _⟩

/-- C10, at a concrete rule, order `2` and the empty not-generated cache. -/
theorem check_weights_idempotent_witness :
    (0 : ℤ) ≤ 2 ∧ ∃ c1,
      scalar_triangle.check_weights ⟨fun _ _ _ _ => 0, fun _ _ _ _ => 1⟩ 2 ⟨false, [], [], []⟩
        = .ok c1
      ∧ scalar_triangle.check_weights ⟨fun _ _ _ _ => 0, fun _ _ _ _ => 1⟩ 2 c1 = .ok c1
      ∧ c1.gauleg_calls.length ≤ (⟨false, [], [], []⟩ : quadrature_cache).gauleg_calls.length + 1 :=
  ⟨by decide,
    (check_weights_idempotent ⟨fun _ _ _ _ => 0, fun _ _ _ _ => 1⟩ 2 ⟨false, [], [], []⟩).2.2
      (by decide)⟩

/-! ## The subtracted pole and the tangent map -/

theorem pole_primitive_hasDerivAt (s x : ℝ) (hs0 : s ≠ 0) (hx : 0 < x) (hxs : 0 < x - s) :
    HasDerivAt (fun y : ℝ => (Real.log (y - s) - Real.log y) / s) (1 / (x * (x - s))) x := by
  have h1 : HasDerivAt (fun y : ℝ => Real.log (y - s)) (1 / (x - s)) x :=
    ((hasDerivAt_id x).sub_const s).log (ne_of_gt hxs)
  have h2 : HasDerivAt (fun y : ℝ => Real.log y) x⁻¹ x := Real.hasDerivAt_log (ne_of_gt hx)
  have h := (h1.sub h2).div_const s
  have e : (1 / (x - s) - x⁻¹) / s = 1 / (x * (x - s)) := by
    have hx0 : x ≠ 0 := ne_of_gt hx
    have hxs0 : x - s ≠ 0 := ne_of_gt hxs
    field_simp
    ring
  rw [← e]
  exact h

theorem pole_integral (s low high : ℝ) (hlow : 0 < low) (hlh : low < high) (hs0 : s ≠ 0)
    (hs : s < low) :
    (∫ x in low..high, 1 / (x * (x - s)))
      = (Real.log (high - s) - Real.log high) / s - (Real.log (low - s) - Real.log low) / s := by
  have hmem : ∀ x ∈ Set.uIcc low high, 0 < x ∧ 0 < x - s := by
    intro x hx
    rw [Set.uIcc_of_le (le_of_lt hlh)] at hx
    exact ⟨lt_of_lt_of_le hlow hx.1, by linarith [hx.1]⟩
  apply intervalIntegral.integral_eq_sub_of_hasDerivAt
  · intro x hx
    exact pole_primitive_hasDerivAt s x hs0 (hmem x hx).1 (hmem x hx).2
  · apply ContinuousOn.intervalIntegrable
    apply ContinuousOn.div continuousOn_const
    · exact (continuous_id.mul (continuous_id.sub continuous_const)).continuousOn
    · intro x hx
      exact mul_ne_zero (ne_of_gt (hmem x hx).1) (ne_of_gt (hmem x hx).2)

/-- For `0 < low < high`, `s ≠ 0` and `s < low`, the logarithmic term that
`s_dispersion` adds back equals `sub_point` times the integral from `low` to
`high` of `1/(s' (s' - s))`, the pole term without its `ieps`. -/
theorem s_dispersion_log_term_eq_integral (sub_point : ℂ) (s low high : ℝ) (hlow : 0 < low)
    (hlh : low < high) (hs0 : s ≠ 0) (hs : s < low) :
    scalar_triangle.s_dispersion_log_term sub_point s low high
      = sub_point * (((∫ x in low..high, 1 / (x * (x - s)) : ℝ)) : ℂ) := by
  rw [pole_integral s low high hlow hlh hs0 hs]
  unfold scalar_triangle.s_dispersion_log_term
  have eh : Complex.log ((high : ℂ) - (s : ℂ) * xr) = ((Real.log (high - s) : ℝ) : ℂ) := by
    rw [Complex.ofReal_log (by linarith), xr_eq]
    push_cast
    ring_nf
  have el : Complex.log ((low : ℂ) - (s : ℂ) * xr) = ((Real.log (low - s) : ℝ) : ℂ) := by
    rw [Complex.ofReal_log (by linarith), xr_eq]
    push_cast
    ring_nf
  have hsc : (s : ℂ) ≠ 0 := Complex.ofReal_ne_zero.mpr hs0
  rw [eh, el]
  push_cast
  field_simp
  ring

/-- The logarithmic term at `low = 1`, `high = 2`, `s = -1`, `sub_point = 1`. -/
theorem s_dispersion_log_term_eq_integral_witness :
    scalar_triangle.s_dispersion_log_term 1 (-1) 1 2
      = 1 * (((∫ x in (1 : ℝ)..2, 1 / (x * (x - (-1))) : ℝ)) : ℂ) :=
  s_dispersion_log_term_eq_integral 1 (-1) 1 2 (by norm_num) (by norm_num) (by norm_num)
    (by norm_num)

/-- For `0 ≤ u < 1` the factor `(π/2)/cos²(π u/2)` is the derivative at `u` of the
node map `u ↦ a + tan(π u/2)`; multiplying by `π/2` and then dividing by
`cos²(π u/2)` is multiplying by it. -/
theorem tan_node_hasDerivAt (a u : ℝ) (h0 : 0 ≤ u) (h1 : u < 1) :
    HasDerivAt (fun v : ℝ => scalar_triangle.tan_node a v) (scalar_triangle.jacobian u) u
    ∧ (∀ v : ℝ, a + Real.tan (Real.pi * v / 2) = scalar_triangle.tan_node a v)
    ∧ ∀ temp : ℂ,
        temp * ((Real.pi / 2 : ℝ) : ℂ) / (((Real.cos (Real.pi * u / 2)) ^ (2 : ℝ) : ℝ) : ℂ)
          = temp * ((scalar_triangle.jacobian u : ℝ) : ℂ) := by
  have hpi := Real.pi_pos
  have hcos : 0 < Real.cos (Real.pi * u / 2) := by
    apply Real.cos_pos_of_mem_Ioo
    constructor
    · have : 0 ≤ Real.pi * u := mul_nonneg (le_of_lt hpi) h0
      linarith
    · have : Real.pi * u < Real.pi * 1 := mul_lt_mul_of_pos_left h1 hpi
      linarith
  refine ⟨?_, fun v => rfl, ?_⟩
  · have hin : HasDerivAt (fun v : ℝ => Real.pi * v / 2) (Real.pi * 1 / 2) u :=
      ((hasDerivAt_id u).const_mul Real.pi).div_const 2
    have ht := (Real.hasDerivAt_tan (ne_of_gt hcos)).comp u hin
    have h := ht.const_add a
    have e : 1 / Real.cos (Real.pi * u / 2) ^ 2 * (Real.pi * 1 / 2)
        = scalar_triangle.jacobian u := by
      unfold scalar_triangle.jacobian
      rw [Real.rpow_two]
      have hc0 : Real.cos (Real.pi * u / 2) ≠ 0 := ne_of_gt hcos
      field_simp
      left
      ring
    rw [← e]
    exact h
  · intro temp
    unfold scalar_triangle.jacobian
    push_cast
    ring

/-- The derivative of the node map at `a = 0`, `u = 1/2`. -/
theorem tan_node_hasDerivAt_witness :
    HasDerivAt (fun v : ℝ => scalar_triangle.tan_node 0 v) (scalar_triangle.jacobian (1 / 2))
      (1 / 2) :=
  (tan_node_hasDerivAt 0 (1 / 2) (by norm_num) (by norm_num)).1

/-! ## Fatal exits of the Feynman integrand -/

/-- C11: for every subtraction count outside `{0, 1}` the call of `eval` ends in a
diagnostic and returns no value: "Insufficient subtractions" for `n < 0`, "not yet
implimented" for `n ≥ 2`, whatever the wave code and the Feynman parameters. -/
theorem dF3_integrand_eval_unsupported_n
    (update_fparams : dF3_integrand → ℝ → ℝ → ℝ → dF3_integrand)
    (qns : quantum_numbers) (self : dF3_integrand) (x y z : ℝ)
    (h0 : qns.n ≠ 0) (h1 : qns.n ≠ 1) :
    (qns.n < 0 → dF3_integrand.eval update_fparams qns self x y z
        = .error (Fatal.insufficient_subtractions qns.j qns.jp qns.n))
    ∧ (2 ≤ qns.n → dF3_integrand.eval update_fparams qns self x y z
        = .error (Fatal.subtractions_not_implemented qns.n))
    ∧ ∃ e, dF3_integrand.eval update_fparams qns self x y z = .error e := by
  have hneg : qns.n < 0 → dF3_integrand.eval update_fparams qns self x y z
      = .error (Fatal.insufficient_subtractions qns.j qns.jp qns.n) := by
    intro h
    simp [dF3_integrand.eval, h]
  have hbig : 2 ≤ qns.n → dF3_integrand.eval update_fparams qns self x y z
      = .error (Fatal.subtractions_not_implemented qns.n) := by
    intro h
    have hlt : ¬ qns.n < 0 := by omega
    simp [dF3_integrand.eval, hlt, h0, h1]
  refine ⟨hneg, hbig, ?_⟩
  by_cases h : qns.n < 0
  · exact ⟨_, hneg h⟩
  · exact ⟨_, hbig (by omega)⟩

/-- C11, at `n = 2` with the s-wave scalar code. -/
theorem dF3_integrand_eval_unsupported_n_witness :
    ∃ e, dF3_integrand.eval (fun st x y z => { st with x := x, y := y, z := z })
      ⟨0, 0, 0, 2, 0⟩ ⟨1, 0, 0, 0, 2, 2, 0, 0, 1, 1⟩ 1 1 1 = .error e :=
  (dF3_integrand_eval_unsupported_n (fun st x y z => { st with x := x, y := y, z := z })
    ⟨0, 0, 0, 2, 0⟩ ⟨1, 0, 0, 0, 2, 2, 0, 0, 1, 1⟩ 1 1 1 (by decide) (by decide)).2.2

theorem mT_unsupported (qns : quantum_numbers) (self : dF3_integrand) (id : ℤ) (s : ℝ)
    (h : ¬ dF3_integrand.supported_id id) :
    dF3_integrand.mT qns self id s
      = .error (Fatal.mT_combination_not_available qns.j qns.jp qns.id) := by
  unfold dF3_integrand.supported_id at h
  simp only [not_or] at h
  obtain ⟨h0, h1, h10, h11, h20, h10000, hom⟩ := h
  simp [dF3_integrand.mT, h0, h1, h10, h11, h20, h10000, hom]

/-- C12: `mT(id, _s)` returns a value exactly when `id` is one of `0, 1, 10, 11, 20,
10000, -11111`; for every other `id` it raises the diagnostic that prints `j`, `jp`
and the code `qns->id()`, and returns nothing. -/
theorem dF3_integrand_mT_returns_iff (qns : quantum_numbers) (self : dF3_integrand) (id : ℤ)
    (s : ℝ) :
    ((∃ r, dF3_integrand.mT qns self id s = .ok r) ↔ dF3_integrand.supported_id id)
    ∧ (¬ dF3_integrand.supported_id id → dF3_integrand.mT qns self id s
        = .error (Fatal.mT_combination_not_available qns.j qns.jp qns.id)) := by
  refine ⟨⟨?_, ?_⟩, mT_unsupported qns self id s⟩
  · rintro ⟨r, hr⟩
    by_contra hn
    rw [mT_unsupported qns self id s hn] at hr
    cases hr
  · intro h
    obtain ⟨v, hv⟩ := mT_supported qns self id s h
    exact ⟨_, hv⟩

/-- C12, at the unsupported code `21` of the descriptor `j = 2`, `jp = 1`. -/
theorem dF3_integrand_mT_returns_iff_witness :
    dF3_integrand.mT ⟨2, 1, 0, 0, 21⟩ ⟨1, 1, 1, 1, 2, 2, 0, 0, 1, 1⟩ 21 1
      = .error (Fatal.mT_combination_not_available 2 1 21) :=
  (dF3_integrand_mT_returns_iff ⟨2, 1, 0, 0, 21⟩ ⟨1, 1, 1, 1, 2, 2, 0, 0, 1, 1⟩ 21 1).2
    (by decide)

/-! ## Fatal exits of the projection kernel -/

/-- C13: for every total spin `j` outside `{0, 1, 2}` and every `jp`, `l`, `s`, `t`,
`eval` raises the diagnostic naming `j` and `jp` and returns no value. -/
theorem projection_function_eval_unsupported_j (qns : quantum_numbers)
    (self : projection_function) (s t : ℝ)
    (h0 : qns.j ≠ 0) (h1 : qns.j ≠ 1) (h2 : qns.j ≠ 2) :
    projection_function.eval qns self s t
      = .error (Fatal.projection_combination_not_available qns.j qns.jp) := by
  simp [projection_function.eval, bind, Except.bind, h0, h1, h2]

/-- C13, at `j = 3`, `jp = 0`. -/
theorem projection_function_eval_unsupported_j_witness :
    projection_function.eval ⟨3, 0, 0, 0, 30⟩ ⟨1, 1⟩ 1 1
      = .error (Fatal.projection_combination_not_available 3 0) :=
  projection_function_eval_unsupported_j ⟨3, 0, 0, 0, 30⟩ ⟨1, 1⟩ 1 1 (by decide) (by decide)
    (by decide)

/-! ## The size of the quadrature cache -/

theorem check_weights_never_wrong_number (gl : gauleg_rule) (xN : ℤ) (c : quadrature_cache)
    (hN : 0 ≤ xN) :
    scalar_triangle.check_weights gl xN c ≠ .error Fatal.wrong_number_of_weights := by
  by_cases hg : c.WG_GENERATED = false
  · rw [check_weights_fresh gl xN c hg hN]
    intro h
    cases h
  · have hg' : c.WG_GENERATED = true := by simpa using hg
    rw [check_weights_generated gl xN c hg']
    intro h
    cases h

/-- C14: run from the not-generated state with `xN ≥ 0`, `check_weights` returns with
`WG_GENERATED` true and exactly `xN` entries in `weights` and in `abscissas`, so
every index `0 ≤ i < xN` read by the quadrature loops is in bounds; and from no
state with `xN ≥ 0` does it reach the "wrong number of weights" exit. -/
theorem check_weights_counts (gl : gauleg_rule) (xN : ℤ) (c : quadrature_cache)
    (hN : 0 ≤ xN) (hg : c.WG_GENERATED = false) :
    (∃ c1, scalar_triangle.check_weights gl xN c = .ok c1
      ∧ c1.WG_GENERATED = true
      ∧ (c1.weights.length : ℤ) = xN
      ∧ (c1.abscissas.length : ℤ) = xN
      ∧ ∀ i : ℕ, (i : ℤ) < xN → i < c1.weights.length ∧ i < c1.abscissas.length)
    ∧ ∀ c2 : quadrature_cache,
        scalar_triangle.check_weights gl xN c2 ≠ .error Fatal.wrong_number_of_weights := by
  have hl : ((xN.toNat : ℕ) : ℤ) = xN := Int.toNat_of_nonneg hN
  refine ⟨⟨_, check_weights_fresh gl xN c hg hN, rfl, ?_, ?_, ?_⟩,
    fun c2 => check_weights_never_wrong_number gl xN c2 hN⟩
  · simp [indices_from_one_length, hl]
  · simp [indices_from_one_length, hl]
  · intro i hi
    simp only [List.length_map, indices_from_one_length]
    omega

/-- C14, at order `2` and the empty not-generated cache. -/
theorem check_weights_counts_witness :
    ∃ c1, scalar_triangle.check_weights ⟨fun _ _ _ _ => 0, fun _ _ _ _ => 1⟩ 2 ⟨false, [], [], []⟩
        = .ok c1
      ∧ c1.WG_GENERATED = true
      ∧ (c1.weights.length : ℤ) = 2
      ∧ (c1.abscissas.length : ℤ) = 2
      ∧ ∀ i : ℕ, (i : ℤ) < 2 → i < c1.weights.length ∧ i < c1.abscissas.length :=
  (check_weights_counts ⟨fun _ _ _ _ => 0, fun _ _ _ _ => 1⟩ 2 ⟨false, [], [], []⟩
    (by decide) rfl).1

/-! ## Kinematic functions -/

theorem csqrt_zero : csqrt 0 = 0 := by
  simp [csqrt]

theorem Kallen_factor (s m1 m2 : ℝ) :
    Kallen (s : ℂ) ((m1 * m1 : ℝ) : ℂ) ((m2 * m2 : ℝ) : ℂ)
      = ((s : ℂ) - (((m1 + m2) ^ 2 : ℝ) : ℂ)) * ((s : ℂ) - (((m1 - m2) ^ 2 : ℝ) : ℂ)) := by
  unfold Kallen
  push_cast
  ring

/-- In exact real arithmetic, for internal masses with `m1 + m2 ≠ 0` the formula of
`scalar_triangle::Kacser` vanishes at `s = (m1 + m2)^2`, because
`Kallen(s, m1^2, m2^2) = (s - (m1 + m2)^2)(s - (m1 - m2)^2)` does. This is a fact
about the formula; the rounded products of `double` arithmetic need not cancel. -/
theorem scalar_triangle_Kacser_threshold (T : scalar_triangle) (h : T.m1 + T.m2 ≠ 0) :
    scalar_triangle.Kacser T ((T.m1 + T.m2) ^ 2) = 0
    ∧ (∀ s : ℝ, Kallen (s : ℂ) ((T.m1 * T.m1 : ℝ) : ℂ) ((T.m2 * T.m2 : ℝ) : ℂ)
        = ((s : ℂ) - (((T.m1 + T.m2) ^ 2 : ℝ) : ℂ)) * ((s : ℂ) - (((T.m1 - T.m2) ^ 2 : ℝ) : ℂ)))
    ∧ (T.m1 + T.m2) ^ 2 ≠ 0 := by
  refine ⟨?_, fun s => Kallen_factor s T.m1 T.m2, pow_ne_zero 2 h⟩
  unfold scalar_triangle.Kacser
  rw [Kallen_factor, sub_self, zero_mul, csqrt_zero, mul_zero, zero_div]

/-- The vanishing of the formula at `m1 = m2 = 1`, threshold `s = 4`. -/
theorem scalar_triangle_Kacser_threshold_witness :
    scalar_triangle.Kacser ⟨1, 1, 3, 1, 0, 0, 0, 0, 2, fun _ => 0⟩ (((1 : ℝ) + 1) ^ 2) = 0 :=
  (scalar_triangle_Kacser_threshold ⟨1, 1, 3, 1, 0, 0, 0, 0, 2, fun _ => 0⟩
    (by norm_num)).1

theorem EPS_pos : 0 < EPS := by
  unfold EPS
  norm_num

theorem sub_ieps_ne_zero (z : ℂ) (hz : z.im = 0) : z - ieps ≠ 0 := by
  intro h
  have him := congrArg Complex.im h
  simp only [Complex.sub_im, hz, ieps, Complex.zero_im] at him
  linarith [EPS_pos]

theorem projection_function_Kacser_ne_zero (self : projection_function) (s : ℝ) (hs : s ≠ 0)
    (hk : Kallen (s : ℂ) (self.mPi2 : ℂ) (self.mPi2 : ℂ) ≠ 0) :
    projection_function.Kacser self s ≠ 0 := by
  unfold projection_function.Kacser
  refine mul_ne_zero (mul_ne_zero (csqrt_ne_zero ?_) (csqrt_ne_zero ?_))
    (div_ne_zero (csqrt_ne_zero hk) (Complex.ofReal_ne_zero.mpr hs))
  · exact sub_ieps_ne_zero _
      (by rw [Complex.sub_im, Complex.ofReal_im, Complex.ofReal_im, sub_zero])
  · exact sub_ieps_ne_zero _
      (by rw [Complex.sub_im, Complex.ofReal_im, Complex.ofReal_im, sub_zero])

theorem projection_function_t_plus_sub_t_minus (self : projection_function) (s : ℝ) :
    projection_function.t_plus self s - projection_function.t_minus self s
      = projection_function.Kacser self s := by
  unfold projection_function.t_plus projection_function.t_minus
  ring

/-- C19: where `Kacser(s) ≠ 0`, the kernels satisfy the recursion of the moments,
`Q(k+1) = t Q(k) - (t_plus^(k+1) - t_minus^(k+1)) / ((k+1) Kacser)` for `k = 0, 1`,
and `t_plus(s) - t_minus(s) = Kacser(s)`. -/
theorem projection_function_Q_recursion (self : projection_function) (s t : ℝ)
    (hK : projection_function.Kacser self s ≠ 0) :
    projection_function.t_plus self s - projection_function.t_minus self s
      = projection_function.Kacser self s
    ∧ ∃ q0 q1 q2 : ℂ,
        projection_function.Q self 0 s t = .ok q0
        ∧ projection_function.Q self 1 s t = .ok q1
        ∧ projection_function.Q self 2 s t = .ok q2
        ∧ q1 = (t : ℂ) * q0
            - (projection_function.t_plus self s ^ 1 - projection_function.t_minus self s ^ 1)
              / (1 * projection_function.Kacser self s)
        ∧ q2 = (t : ℂ) * q1
            - (projection_function.t_plus self s ^ 2 - projection_function.t_minus self s ^ 2)
              / (2 * projection_function.Kacser self s) := by
  have hd := projection_function_t_plus_sub_t_minus self s
  refine ⟨hd, _, _, _, rfl, rfl, rfl, ?_, ?_⟩
  · rw [pow_one, pow_one, hd, one_mul, div_self hK]
  · rw [Complex.cpow_two, Complex.cpow_two]
    push_cast
    field_simp
    ring

/-- C19, at `mDec2 = 1`, `mPi2 = 0`, `s = 1`, `t = 1`. -/
theorem projection_function_Q_recursion_witness :
    projection_function.t_plus ⟨1, 0⟩ 1 - projection_function.t_minus ⟨1, 0⟩ 1
      = projection_function.Kacser ⟨1, 0⟩ 1 :=
  (projection_function_Q_recursion ⟨1, 0⟩ 1 1
    (projection_function_Kacser_ne_zero ⟨1, 0⟩ 1 one_ne_zero (by
      unfold Kallen
      norm_num))).1

/-! ## The equal-mass configuration -/

theorem scalar_triangle_Kacser_equal_mass (T : scalar_triangle) (P : projection_function)
    (hm1 : T.m1 = mPi) (hm2 : T.m2 = mPi) (hp2 : T.p2 = mPi) (hp1 : T.p1 * T.p1 = P.mDec2)
    (hpi : P.mPi2 = mPi ^ 2) (s : ℝ) :
    scalar_triangle.Kacser T s = projection_function.Kacser P s := by
  unfold scalar_triangle.Kacser projection_function.Kacser
  rw [hm1, hm2, hp2, hp1, hpi]
  have e1 : (((Real.sqrt s - mPi) ^ (2 : ℝ) - P.mDec2 : ℝ) : ℂ)
      = (((Real.sqrt s - mPi) ^ (2 : ℝ) : ℝ) : ℂ) - (P.mDec2 : ℂ) := by
    push_cast
    rfl
  have e2 : (((Real.sqrt s + mPi) ^ (2 : ℝ) - P.mDec2 : ℝ) : ℂ)
      = (((Real.sqrt s + mPi) ^ (2 : ℝ) : ℝ) : ℂ) - (P.mDec2 : ℂ) := by
    push_cast
    rfl
  have e3 : ((mPi * mPi : ℝ) : ℂ) = ((mPi ^ 2 : ℝ) : ℂ) := by
    rw [pow_two]
  rw [e1, e2, e3]
  ring

/-- C20: in the equal-mass configuration `m1 = m2 = p2 = mPi`, `p1^2 = mDec2`,
`mPi2 = mPi^2`, for every `s > 0` the general-mass `Kacser`, `t_minus` and `t_plus` of
`scalar_triangle` equal those of `projection_function`. -/
theorem scalar_triangle_equal_mass_helpers (T : scalar_triangle) (P : projection_function)
    (hm1 : T.m1 = mPi) (hm2 : T.m2 = mPi) (hp2 : T.p2 = mPi) (hp1 : T.p1 * T.p1 = P.mDec2)
    (hpi : P.mPi2 = mPi ^ 2) (s : ℝ) (hs : 0 < s) :
    scalar_triangle.Kacser T s = projection_function.Kacser P s
    ∧ scalar_triangle.t_minus T s = projection_function.t_minus P s
    ∧ scalar_triangle.t_plus T s = projection_function.t_plus P s := by
  have hK := scalar_triangle_Kacser_equal_mass T P hm1 hm2 hp2 hp1 hpi s
  have hsc : (s : ℂ) ≠ 0 := Complex.ofReal_ne_zero.mpr (ne_of_gt hs)
  refine ⟨hK, ?_, ?_⟩
  · unfold scalar_triangle.t_minus projection_function.t_minus
    rw [hK, hm1, hm2, hp2, hp1, hpi]
    push_cast
    field_simp
    ring
  · unfold scalar_triangle.t_plus projection_function.t_plus
    rw [hK, hm1, hm2, hp2, hp1, hpi]
    push_cast
    field_simp
    ring

/-- C20, at `p1 = 2`, `mDec2 = 4`, `s = 1`. -/
theorem scalar_triangle_equal_mass_helpers_witness :
    scalar_triangle.Kacser ⟨mPi, mPi, 2, mPi, 0, 0, 0, 0, 2, fun _ => 0⟩ 1
        = projection_function.Kacser ⟨4, mPi ^ 2⟩ 1
    ∧ scalar_triangle.t_minus ⟨mPi, mPi, 2, mPi, 0, 0, 0, 0, 2, fun _ => 0⟩ 1
        = projection_function.t_minus ⟨4, mPi ^ 2⟩ 1
    ∧ scalar_triangle.t_plus ⟨mPi, mPi, 2, mPi, 0, 0, 0, 0, 2, fun _ => 0⟩ 1
        = projection_function.t_plus ⟨4, mPi ^ 2⟩ 1 :=
  scalar_triangle_equal_mass_helpers ⟨mPi, mPi, 2, mPi, 0, 0, 0, 0, 2, fun _ => 0⟩
    ⟨4, mPi ^ 2⟩ rfl rfl rfl (by norm_num) rfl 1 (by norm_num)

/-! ## The closed form of the projection kernel -/

/-- C18: for a supported pair `(j, jp)` and an `l` that keeps every index handed to
`Q` inside `{0, 1, 2}`, `eval(s, t)` returns `W * barrier_ratio(j, s) / (Kacser(s)^j * t^l)`
with `W` the weighted sum of the pair; the power of `Kacser` divided out is `j`, and
`barrier_ratio(0, s) = 1`. -/
theorem projection_function_eval_closed_form (qns : quantum_numbers)
    (self : projection_function) (s t : ℝ)
    (h : projection_function.Q_indices_ok qns.j qns.jp qns.l) :
    projection_function.eval qns self s t
        = .ok (projection_function.projection_closed_form qns self s t)
    ∧ projection_function.barrier_ratio self 0 s = 1 := by
  refine ⟨?_, by simp [projection_function.barrier_ratio]⟩
  obtain ⟨j, jp, l, n, id⟩ := qns
  simp only [projection_function.Q_indices_ok] at h
  rcases h with ⟨rfl, rfl, h1, h2⟩ | ⟨rfl, rfl, h1, h2⟩ | ⟨rfl, rfl, h1, h2⟩ | ⟨rfl, rfl, rfl⟩
    | ⟨rfl, rfl, rfl⟩
  · interval_cases l <;>
      simp [projection_function.eval, projection_function.projection_closed_form,
        projection_function.projection_weight, projection_function.Q_value,
        projection_function.Q, bind, Except.bind, pure, Except.pure]
  · interval_cases l <;>
      simp [projection_function.eval, projection_function.projection_closed_form,
        projection_function.projection_weight, projection_function.Q_value,
        projection_function.Q, bind, Except.bind, pure, Except.pure]
  · interval_cases l <;>
      (simp [projection_function.eval, projection_function.projection_closed_form,
        projection_function.projection_weight, projection_function.Q_value,
        projection_function.Q, bind, Except.bind, pure, Except.pure]
       ring)
  · simp [projection_function.eval, projection_function.projection_closed_form,
        projection_function.projection_weight, projection_function.Q_value,
        projection_function.Q, bind, Except.bind, pure, Except.pure]
    ring
  · simp [projection_function.eval, projection_function.projection_closed_form,
        projection_function.projection_weight, projection_function.Q_value,
        projection_function.Q, bind, Except.bind, pure, Except.pure]
    ring

/-- C18, at the s-wave scalar pair with `l = 0`. -/
theorem projection_function_eval_closed_form_witness :
    projection_function.eval ⟨0, 0, 0, 0, 0⟩ ⟨1, 0⟩ 1 1
      = .ok (projection_function.projection_closed_form ⟨0, 0, 0, 0, 0⟩ ⟨1, 0⟩ 1 1) :=
  (projection_function_eval_closed_form ⟨0, 0, 0, 0, 0⟩ ⟨1, 0⟩ 1 1 (by decide)).1

/-! ## Evaluation makes no check of the configuration -/

theorem bind_returns {α β : Type} (x : Except Fatal α) (g : α → Except Fatal β)
    (hx : ∃ a, x = .ok a) (hg : ∀ a, ∃ b, g a = .ok b) : ∃ b, (x >>= g) = .ok b := by
  obtain ⟨a, ha⟩ := hx
  obtain ⟨b, hb⟩ := hg a
  exact ⟨b, by rw [ha]; exact hb⟩

theorem foldlM_returns {α ι : Type} (f : α → ι → Except Fatal α)
    (hf : ∀ a i, ∃ r, f a i = .ok r) (L : List ι) :
    ∀ init : α, ∃ r, L.foldlM f init = .ok r := by
  induction L with
  | nil => intro init; exact ⟨init, rfl⟩
  | cons i L ih =>
    intro init
    rw [List.foldlM_cons]
    exact bind_returns _ _ (hf init i) ih

theorem check_weights_returns (gl : gauleg_rule) (xN : ℤ) (c : quadrature_cache) (hN : 0 ≤ xN) :
    ∃ c1, scalar_triangle.check_weights gl xN c = .ok c1 := by
  by_cases hg : c.WG_GENERATED = false
  · exact ⟨_, check_weights_fresh gl xN c hg hN⟩
  · have hg' : c.WG_GENERATED = true := by simpa using hg
    exact ⟨c, check_weights_generated gl xN c hg'⟩

theorem triangle_kernel_returns (gl : gauleg_rule) (T : scalar_triangle) (c : quadrature_cache)
    (s t : ℝ) (hN : 0 ≤ T.xN) : ∃ r, scalar_triangle.triangle_kernel gl T c s t = .ok r := by
  unfold scalar_triangle.triangle_kernel
  exact bind_returns _ _ (check_weights_returns gl T.xN c hN) (fun c1 => ⟨_, rfl⟩)

theorem t_dispersion_returns (gl : gauleg_rule) (T : scalar_triangle) (c : quadrature_cache)
    (s : ℝ) (hN : 0 ≤ T.xN) : ∃ r, scalar_triangle.t_dispersion gl T c s = .ok r := by
  unfold scalar_triangle.t_dispersion
  exact bind_returns _ _ (check_weights_returns gl T.xN c hN) (fun c1 => ⟨_, rfl⟩)

theorem eval_feynman_returns (gl : gauleg_rule) (T : scalar_triangle) (c : quadrature_cache)
    (s : ℝ) (hN : 0 ≤ T.xN) : ∃ r, scalar_triangle.eval_feynman gl T c s = .ok r := by
  unfold scalar_triangle.eval_feynman
  refine bind_returns _ _ (check_weights_returns gl T.xN c hN) (fun c1 => ?_)
  refine bind_returns _ _ (foldlM_returns _ (fun acc i => ?_) _ _) (fun r => ⟨_, rfl⟩)
  exact bind_returns _ _ (triangle_kernel_returns gl T acc.2 s _ hN) (fun k => ⟨_, rfl⟩)

theorem s_dispersion_returns (gl : gauleg_rule) (T : scalar_triangle) (c : quadrature_cache)
    (s low high : ℝ) (hN : 0 ≤ T.xN) :
    ∃ r, scalar_triangle.s_dispersion gl T c s low high = .ok r := by
  unfold scalar_triangle.s_dispersion
  refine bind_returns _ _ (t_dispersion_returns gl T _ s hN) (fun sub => ?_)
  refine bind_returns _ _ (foldlM_returns _ (fun acc i => ?_) _ _) (fun r => ⟨_, rfl⟩)
  exact bind_returns _ _ (t_dispersion_returns gl T acc.2 _ hN) (fun td => ⟨_, rfl⟩)

theorem s_dispersion_inf_returns (gl : gauleg_rule) (T : scalar_triangle) (c : quadrature_cache)
    (s low : ℝ) (hN : 0 ≤ T.xN) :
    ∃ r, scalar_triangle.s_dispersion_inf gl T c s low = .ok r := by
  unfold scalar_triangle.s_dispersion_inf
  refine bind_returns _ _ (check_weights_returns gl T.xN c hN) (fun c1 => ?_)
  refine bind_returns _ _ (t_dispersion_returns gl T c1 s hN) (fun sub => ?_)
  refine bind_returns _ _ (foldlM_returns _ (fun acc i => ?_) _ _) (fun r => ⟨_, rfl⟩)
  exact bind_returns _ _ (t_dispersion_returns gl T acc.2 _ hN) (fun td => ⟨_, rfl⟩)

theorem eval_dispersive_returns (gl : gauleg_rule) (T : scalar_triangle) (c : quadrature_cache)
    (s : ℝ) (hN : 0 ≤ T.xN) : ∃ r, scalar_triangle.eval_dispersive gl T c s = .ok r := by
  unfold scalar_triangle.eval_dispersive
  split
  · exact s_dispersion_inf_returns gl T c s _ hN
  · refine bind_returns _ _ (s_dispersion_returns gl T c s _ _ hN) (fun temp => ?_)
    exact bind_returns _ _ (s_dispersion_inf_returns gl T temp.2 s _ hN) (fun rest => ⟨_, rfl⟩)

/-- C16, refuted at an evaluator whose masses and thresholds were never set (all
fields `0`), order `2` and a fresh cache: `eval_feynman(1.)` and `eval_dispersive(1.)`
both return a value; no unconfigured state is detected. -/
theorem scalar_triangle_eval_unset_masses_returns :
    (∃ r, scalar_triangle.eval_feynman ⟨fun _ _ _ _ => 0, fun _ _ _ _ => 1⟩
        ⟨0, 0, 0, 0, 0, 0, 0, 0, 2, fun _ => 0⟩ ⟨false, [], [], []⟩ 1 = .ok r)
    ∧ (∃ r, scalar_triangle.eval_dispersive ⟨fun _ _ _ _ => 0, fun _ _ _ _ => 1⟩
        ⟨0, 0, 0, 0, 0, 0, 0, 0, 2, fun _ => 0⟩ ⟨false, [], [], []⟩ 1 = .ok r) :=
  ⟨eval_feynman_returns _ _ _ _ (by decide), eval_dispersive_returns _ _ _ _ (by decide)⟩

/-! ## The roots in `kernel_integrand` -/

/-- C22: for `p2 ≠ 0`, and every `s`, `t`, `x`, the computed `y_plus` and `y_minus` are
the two roots of `a y^2 + b y + c` with the coefficients of `kernel_integrand`, and
`a (y_plus - y_minus)` is the `sqrt(d)` by which the result is divided. -/
theorem kernel_integrand_roots (T : scalar_triangle) (s t x : ℝ) (hp2 : T.p2 ≠ 0) :
    scalar_triangle.kernel_a T * scalar_triangle.y_plus T s t x ^ 2
        + scalar_triangle.kernel_b T s t x * scalar_triangle.y_plus T s t x
        + scalar_triangle.kernel_c T t x = 0
    ∧ scalar_triangle.kernel_a T * scalar_triangle.y_minus T s t x ^ 2
        + scalar_triangle.kernel_b T s t x * scalar_triangle.y_minus T s t x
        + scalar_triangle.kernel_c T t x = 0
    ∧ scalar_triangle.kernel_a T
        * (scalar_triangle.y_plus T s t x - scalar_triangle.y_minus T s t x)
        = csqrt (xr * scalar_triangle.kernel_d T s t x)
    ∧ scalar_triangle.kernel_integrand T s t x
        = ((Complex.log (scalar_triangle.y_plus T s t x + (x : ℂ) - xr)
              - Complex.log (scalar_triangle.y_minus T s t x + (x : ℂ) - xr))
            - (Complex.log (scalar_triangle.y_plus T s t x)
              - Complex.log (scalar_triangle.y_minus T s t x)))
          / (scalar_triangle.kernel_a T
            * (scalar_triangle.y_plus T s t x - scalar_triangle.y_minus T s t x)) := by
  have ha : scalar_triangle.kernel_a T ≠ 0 := by
    unfold scalar_triangle.kernel_a
    exact Complex.ofReal_ne_zero.mpr (mul_ne_zero hp2 hp2)
  have hr : csqrt (xr * scalar_triangle.kernel_d T s t x)
      * csqrt (xr * scalar_triangle.kernel_d T s t x)
      = scalar_triangle.kernel_b T s t x * scalar_triangle.kernel_b T s t x
        - 4 * scalar_triangle.kernel_a T * scalar_triangle.kernel_c T t x := by
    rw [csqrt_mul_self, xr_eq, one_mul]
    rfl
  have hdiff : scalar_triangle.kernel_a T
      * (scalar_triangle.y_plus T s t x - scalar_triangle.y_minus T s t x)
      = csqrt (xr * scalar_triangle.kernel_d T s t x) := by
    unfold scalar_triangle.y_plus scalar_triangle.y_minus
    field_simp
    ring
  refine ⟨?_, ?_, hdiff, ?_⟩
  · unfold scalar_triangle.y_plus
    generalize csqrt (xr * scalar_triangle.kernel_d T s t x) = r at hr
    field_simp
    linear_combination (2 * scalar_triangle.kernel_a T ^ 2) * hr
  · unfold scalar_triangle.y_minus
    generalize csqrt (xr * scalar_triangle.kernel_d T s t x) = r at hr
    field_simp
    linear_combination (2 * scalar_triangle.kernel_a T ^ 2) * hr
  · rw [hdiff]
    rfl

/-- C22, at `p2 = 1`, `m1 = 1`, `p1 = 3`, `s = t = 1`, `x = 1/2`. -/
theorem kernel_integrand_roots_witness :
    scalar_triangle.kernel_a ⟨1, 1, 3, 1, 4, 4, 4, 1, 2, fun _ => 1⟩
        * (scalar_triangle.y_plus ⟨1, 1, 3, 1, 4, 4, 4, 1, 2, fun _ => 1⟩ 1 1 (1 / 2)
          - scalar_triangle.y_minus ⟨1, 1, 3, 1, 4, 4, 4, 1, 2, fun _ => 1⟩ 1 1 (1 / 2))
      = csqrt (xr * scalar_triangle.kernel_d ⟨1, 1, 3, 1, 4, 4, 4, 1, 2, fun _ => 1⟩ 1 1 (1 / 2)) :=
  (kernel_integrand_roots ⟨1, 1, 3, 1, 4, 4, 4, 1, 2, fun _ => 1⟩ 1 1 (1 / 2)
    one_ne_zero).2.2.1

/-! ## The scratch fields of the Feynman integrand -/

theorem mT_value_congr (qns : quantum_numbers) (self other : dF3_integrand) (id : ℤ) (s : ℝ)
    (hx : other.x = self.x) (hy : other.y = self.y) (hz : other.z = self.z)
    (hd : other.denom0 = self.denom0) (he : other.delta0 = self.delta0)
    (hm : other.mDec2 = self.mDec2) (hp : other.mPi2 = self.mPi2) :
    (dF3_integrand.mT qns other id s).map Prod.fst
      = (dF3_integrand.mT qns self id s).map Prod.fst := by
  by_cases hid : dF3_integrand.supported_id id
  · rcases hid with h | h | h | h | h | h | h <;> subst h <;>
      simp [dF3_integrand.mT, dF3_integrand.T, bind, Except.bind, pure, Except.pure,
        Except.map, hx, hy, hz, hd, he, hm, hp]
  · rw [mT_unsupported qns other id s hid, mT_unsupported qns self id s hid]

theorem subtracted_order (qns : quantum_numbers) (self : dF3_integrand) (id : ℤ) (s : ℝ) :
    (dF3_integrand.subtracted_left_first qns self id s).map Prod.fst
      = (dF3_integrand.subtracted_right_first qns self id s).map Prod.fst := by
  by_cases hid : dF3_integrand.supported_id id
  · obtain ⟨v1, h1⟩ := mT_supported qns self id s hid
    obtain ⟨v0, h0⟩ := mT_supported qns self id 0 hid
    have hl : dF3_integrand.subtracted_left_first qns self id s = .ok (v1 - v0,
        { self with
          denom := self.denom0 - ((self.x * self.y * 0 : ℝ) : ℂ)
          delta := self.delta0 - ((self.x * self.y * 0 : ℝ) : ℂ) }) := by
      unfold dF3_integrand.subtracted_left_first
      rw [h1]
      simp only [bind, Except.bind]
      rw [mT_scratch, h0]
      rfl
    have hr : dF3_integrand.subtracted_right_first qns self id s = .ok (v1 - v0,
        { self with
          denom := self.denom0 - ((self.x * self.y * s : ℝ) : ℂ)
          delta := self.delta0 - ((self.x * self.y * s : ℝ) : ℂ) }) := by
      unfold dF3_integrand.subtracted_right_first
      rw [h0]
      simp only [bind, Except.bind]
      rw [mT_scratch, h1]
      rfl
    rw [hl, hr]
    rfl
  · have e := mT_unsupported qns self id s hid
    have e0 := mT_unsupported qns self id 0 hid
    unfold dF3_integrand.subtracted_left_first dF3_integrand.subtracted_right_first
    rw [e, e0]
    rfl

/-- C23: `mT(id, _s)` overwrites `denom` and `delta` before reading them. Its outcome
is unchanged when the two fields held other values before the call, its value is the
same on any two objects that agree in `x`, `y`, `z`, `denom0`, `delta0`, `mDec2`,
`mPi2`, and the once-subtracted value `mT(id, s) - mT(id, 0.)` is the same for either
evaluation order of the two calls. -/
theorem dF3_integrand_mT_scratch_independent (qns : quantum_numbers)
    (self other : dF3_integrand) (id : ℤ) (s : ℝ)
    (hx : other.x = self.x) (hy : other.y = self.y) (hz : other.z = self.z)
    (hd : other.denom0 = self.denom0) (he : other.delta0 = self.delta0)
    (hm : other.mDec2 = self.mDec2) (hp : other.mPi2 = self.mPi2) :
    (dF3_integrand.mT qns other id s).map Prod.fst
        = (dF3_integrand.mT qns self id s).map Prod.fst
    ∧ (∀ d e : ℂ, dF3_integrand.mT qns { self with denom := d, delta := e } id s
        = dF3_integrand.mT qns self id s)
    ∧ (dF3_integrand.subtracted_left_first qns self id self.s).map Prod.fst
        = (dF3_integrand.subtracted_right_first qns self id self.s).map Prod.fst
    ∧ (∀ (update_fparams : dF3_integrand → ℝ → ℝ → ℝ → dF3_integrand) (x y z : ℝ),
        qns.n = 1 → dF3_integrand.eval update_fparams qns self x y z
          = dF3_integrand.subtracted_left_first qns (update_fparams self x y z) qns.id
              (update_fparams self x y z).s) := by
  refine ⟨mT_value_congr qns self other id s hx hy hz hd he hm hp,
    fun d e => mT_scratch qns self id s d e, subtracted_order qns self id self.s, ?_⟩
  intro update_fparams x y z hn
  have hlt : ¬ qns.n < 0 := by omega
  have hne : ¬ qns.n = 0 := by omega
  simp only [dF3_integrand.eval, hlt, hne, hn, if_true, if_false]
  rfl

/-- C23, at two objects that differ in `s`, `denom` and `delta` only. -/
theorem dF3_integrand_mT_scratch_independent_witness :
    (dF3_integrand.mT ⟨0, 1, 0, 1, 1⟩ ⟨5, 1, 1, 1, 2, 2, 7, 9, 1, 1⟩ 1 3).map Prod.fst
      = (dF3_integrand.mT ⟨0, 1, 0, 1, 1⟩ ⟨1, 1, 1, 1, 2, 2, 0, 0, 1, 1⟩ 1 3).map Prod.fst :=
  (dF3_integrand_mT_scratch_independent ⟨0, 1, 0, 1, 1⟩ ⟨1, 1, 1, 1, 2, 2, 0, 0, 1, 1⟩
    ⟨5, 1, 1, 1, 2, 2, 7, 9, 1, 1⟩ 1 3 rfl rfl rfl rfl rfl rfl rfl).1

/-! ## Running out of `Q` kernels -/

theorem Q_not_enough (self : projection_function) (k : ℤ) (s t : ℝ)
    (h0 : k ≠ 0) (h1 : k ≠ 1) (h2 : k ≠ 2) :
    projection_function.Q self k s t = .error Fatal.not_enough_Qs := by
  simp [projection_function.Q, h0, h1, h2]

/-- C24: a supported pair does not suffice for `eval` to return. `Q(k, s, t)` exits
with "Not enough Q's" for every `k` outside `{0, 1, 2}`, and so does `eval` for
`(1, 1)` and `(2, 0)` with `l ≥ 1`, for `(0, 1)` and `(1, 0)` with `l ≥ 2`, and for
`(0, 0)` with `l ≥ 3`. -/
theorem projection_function_eval_not_enough_Qs (self : projection_function) (l n id : ℤ)
    (s t : ℝ) :
    (∀ k : ℤ, k ≠ 0 → k ≠ 1 → k ≠ 2 →
        projection_function.Q self k s t = .error Fatal.not_enough_Qs)
    ∧ (1 ≤ l → projection_function.eval ⟨1, 1, l, n, id⟩ self s t = .error Fatal.not_enough_Qs)
    ∧ (1 ≤ l → projection_function.eval ⟨2, 0, l, n, id⟩ self s t = .error Fatal.not_enough_Qs)
    ∧ (2 ≤ l → projection_function.eval ⟨0, 1, l, n, id⟩ self s t = .error Fatal.not_enough_Qs)
    ∧ (2 ≤ l → projection_function.eval ⟨1, 0, l, n, id⟩ self s t = .error Fatal.not_enough_Qs)
    ∧ (3 ≤ l → projection_function.eval ⟨0, 0, l, n, id⟩ self s t
        = .error Fatal.not_enough_Qs) := by
  refine ⟨fun k => Q_not_enough self k s t, ?_, ?_, ?_, ?_, ?_⟩
  · intro h
    have e := Q_not_enough self (l + 2) s t (by omega) (by omega) (by omega)
    simp [projection_function.eval, bind, Except.bind, e]
  · intro h
    have e := Q_not_enough self (l + 2) s t (by omega) (by omega) (by omega)
    simp [projection_function.eval, bind, Except.bind, e]
  · intro h
    have e := Q_not_enough self (l + 1) s t (by omega) (by omega) (by omega)
    simp [projection_function.eval, bind, Except.bind, e]
  · intro h
    have e := Q_not_enough self (l + 1) s t (by omega) (by omega) (by omega)
    simp [projection_function.eval, bind, Except.bind, e]
  · intro h
    have e := Q_not_enough self l s t (by omega) (by omega) (by omega)
    simp [projection_function.eval, bind, Except.bind, e]

/-- C24, at the pair `(1, 1)` with `l = 1`. -/
theorem projection_function_eval_not_enough_Qs_witness :
    projection_function.eval ⟨1, 1, 1, 0, 11⟩ ⟨1, 0⟩ 1 1 = .error Fatal.not_enough_Qs :=
  (projection_function_eval_not_enough_Qs ⟨1, 0⟩ 1 0 11 1 1).2.1 (by decide)

/-! ## The projection kernel in the equal-mass configuration -/

theorem scalar_triangle_t_bounds_equal_mass (T : scalar_triangle) (P : projection_function)
    (hm1 : T.m1 = mPi) (hm2 : T.m2 = mPi) (hp2 : T.p2 = mPi) (hp1 : T.p1 * T.p1 = P.mDec2)
    (hpi : P.mPi2 = mPi ^ 2) (s : ℝ) (hs : 0 < s) :
    scalar_triangle.t_minus T s = projection_function.t_minus P s
    ∧ scalar_triangle.t_plus T s = projection_function.t_plus P s := by
  have hK := scalar_triangle_Kacser_equal_mass T P hm1 hm2 hp2 hp1 hpi s
  have hsc : (s : ℂ) ≠ 0 := Complex.ofReal_ne_zero.mpr (ne_of_gt hs)
  constructor
  · unfold scalar_triangle.t_minus projection_function.t_minus
    rw [hK, hm1, hm2, hp2, hp1, hpi]
    push_cast
    field_simp
    ring
  · unfold scalar_triangle.t_plus projection_function.t_plus
    rw [hK, hm1, hm2, hp2, hp1, hpi]
    push_cast
    field_simp
    ring

theorem scalar_triangle_projection_equal_mass (T : scalar_triangle) (P : projection_function)
    (hm1 : T.m1 = mPi) (hm2 : T.m2 = mPi) (hp2 : T.p2 = mPi) (hp1 : T.p1 * T.p1 = P.mDec2)
    (hpi : P.mPi2 = mPi ^ 2) (s : ℝ) (hs : 0 < s) (t : ℝ) :
    scalar_triangle.projection T s t
      = (Complex.log ((t : ℂ) - projection_function.t_minus P s)
          - Complex.log ((t : ℂ) - projection_function.t_plus P s))
        / projection_function.Kacser P s := by
  obtain ⟨hm, hp⟩ := scalar_triangle_t_bounds_equal_mass T P hm1 hm2 hp2 hp1 hpi s hs
  unfold scalar_triangle.projection
  rw [hm, hp, scalar_triangle_Kacser_equal_mass T P hm1 hm2 hp2 hp1 hpi s]

theorem projection_function_eval_s_wave_scalar (P : projection_function) (n id : ℤ) (s t : ℝ) :
    projection_function.eval ⟨0, 0, 0, n, id⟩ P s t = .ok (projection_function.Q_0 P s t) := by
  simp [projection_function.eval, projection_function.Q, projection_function.barrier_ratio,
    bind, Except.bind, pure, Except.pure]

theorem ieps_ne_zero : ieps ≠ 0 := by
  intro h
  have him := congrArg Complex.im h
  simp only [ieps, Complex.zero_im] at him
  linarith [EPS_pos]

theorem projection_log_shift_ne (P : projection_function) (s t : ℝ)
    (hK : projection_function.Kacser P s ≠ 0)
    (h1 : (t : ℂ) - projection_function.t_minus P s ≠ 0)
    (h2 : (t : ℂ) - projection_function.t_plus P s ≠ 0)
    (h3 : (t : ℂ) - ieps - projection_function.t_minus P s ≠ 0)
    (h4 : (t : ℂ) - ieps - projection_function.t_plus P s ≠ 0) :
    (Complex.log ((t : ℂ) - projection_function.t_minus P s)
        - Complex.log ((t : ℂ) - projection_function.t_plus P s))
      / projection_function.Kacser P s ≠ projection_function.Q_0 P s t := by
  intro h
  unfold projection_function.Q_0 at h
  rw [div_left_inj' hK] at h
  have hexp := congrArg Complex.exp h
  rw [Complex.exp_sub, Complex.exp_sub, Complex.exp_log h1, Complex.exp_log h2,
    Complex.exp_log h3, Complex.exp_log h4, div_eq_div_iff h2 h4] at hexp
  have hd := projection_function_t_plus_sub_t_minus P s
  have hz : ieps * projection_function.Kacser P s = 0 := by
    rw [← hd]
    linear_combination -hexp
  rcases mul_eq_zero.mp hz with h0 | h0
  · exact ieps_ne_zero h0
  · exact hK h0

theorem projection_function_Kacser_mul_self (P : projection_function) (s : ℝ) :
    projection_function.Kacser P s * projection_function.Kacser P s
      = ((((Real.sqrt s + mPi) ^ (2 : ℝ) : ℝ) : ℂ) - (P.mDec2 : ℂ) - ieps)
        * ((((Real.sqrt s - mPi) ^ (2 : ℝ) : ℝ) : ℂ) - (P.mDec2 : ℂ) - ieps)
        * Kallen (s : ℂ) (P.mPi2 : ℂ) (P.mPi2 : ℂ) / ((s : ℂ) * (s : ℂ)) := by
  unfold projection_function.Kacser
  have h1 := csqrt_mul_self ((((Real.sqrt s + mPi) ^ (2 : ℝ) : ℝ) : ℂ) - (P.mDec2 : ℂ) - ieps)
  have h2 := csqrt_mul_self ((((Real.sqrt s - mPi) ^ (2 : ℝ) : ℝ) : ℂ) - (P.mDec2 : ℂ) - ieps)
  have h3 := csqrt_mul_self (Kallen (s : ℂ) (P.mPi2 : ℂ) (P.mPi2 : ℂ))
  generalize csqrt ((((Real.sqrt s + mPi) ^ (2 : ℝ) : ℝ) : ℂ) - (P.mDec2 : ℂ) - ieps) = c1
    at h1 ⊢
  generalize csqrt ((((Real.sqrt s - mPi) ^ (2 : ℝ) : ℝ) : ℂ) - (P.mDec2 : ℂ) - ieps) = c2
    at h2 ⊢
  generalize csqrt (Kallen (s : ℂ) (P.mPi2 : ℂ) (P.mPi2 : ℂ)) = c3 at h3 ⊢
  rw [← h1, ← h2, ← h3]
  ring

theorem sample_Kacser_normSq :
    Complex.normSq (projection_function.Kacser ⟨4, mPi ^ 2⟩ 1)
      * Complex.normSq (projection_function.Kacser ⟨4, mPi ^ 2⟩ 1) ≤ 144 := by
  rw [← Complex.normSq_mul, projection_function_Kacser_mul_self]
  have e1 : ((((Real.sqrt 1 + mPi) ^ (2 : ℝ) : ℝ) : ℂ) - (((4 : ℝ)) : ℂ) - ieps)
      = ⟨(1 + mPi) ^ 2 - 4, -EPS⟩ := by
    apply Complex.ext
    · simp only [Complex.sub_re, Complex.ofReal_re, ieps, Real.sqrt_one, Real.rpow_two,
        sub_zero]
    · simp only [Complex.sub_im, Complex.ofReal_im, ieps, sub_zero, zero_sub]
  have e2 : ((((Real.sqrt 1 - mPi) ^ (2 : ℝ) : ℝ) : ℂ) - (((4 : ℝ)) : ℂ) - ieps)
      = ⟨(1 - mPi) ^ 2 - 4, -EPS⟩ := by
    apply Complex.ext
    · simp only [Complex.sub_re, Complex.ofReal_re, ieps, Real.sqrt_one, Real.rpow_two,
        sub_zero]
    · simp only [Complex.sub_im, Complex.ofReal_im, ieps, sub_zero, zero_sub]
  have e3 : Kallen ((1 : ℝ) : ℂ) ((mPi ^ 2 : ℝ) : ℂ) ((mPi ^ 2 : ℝ) : ℂ)
      = ((1 - 4 * mPi ^ 2 : ℝ) : ℂ) := by
    unfold Kallen
    push_cast
    ring
  show Complex.normSq (((((Real.sqrt 1 + mPi) ^ (2 : ℝ) : ℝ) : ℂ) - (((4 : ℝ)) : ℂ) - ieps)
        * ((((Real.sqrt 1 - mPi) ^ (2 : ℝ) : ℝ) : ℂ) - (((4 : ℝ)) : ℂ) - ieps)
        * Kallen ((1 : ℝ) : ℂ) ((mPi ^ 2 : ℝ) : ℂ) ((mPi ^ 2 : ℝ) : ℂ)
        / ((((1 : ℝ)) : ℂ) * (((1 : ℝ)) : ℂ))) ≤ 144
  rw [e1, e2, e3, Complex.ofReal_one, mul_one, div_one, Complex.normSq_mul, Complex.normSq_mul,
    Complex.normSq_ofReal, Complex.normSq_mk, Complex.normSq_mk]
  have b1 : ((1 + mPi) ^ 2 - 4) * ((1 + mPi) ^ 2 - 4) + -EPS * -EPS ≤ 9 := by
    unfold mPi EPS
    norm_num
  have b2 : ((1 - mPi) ^ 2 - 4) * ((1 - mPi) ^ 2 - 4) + -EPS * -EPS ≤ 16 := by
    unfold mPi EPS
    norm_num
  have b3 : (1 - 4 * mPi ^ 2) * (1 - 4 * mPi ^ 2) ≤ 1 := by
    unfold mPi
    norm_num
  have n2 : 0 ≤ ((1 - mPi) ^ 2 - 4) * ((1 - mPi) ^ 2 - 4) + -EPS * -EPS :=
    add_nonneg (mul_self_nonneg _) (mul_self_nonneg _)
  have n3 : 0 ≤ (1 - 4 * mPi ^ 2) * (1 - 4 * mPi ^ 2) := mul_self_nonneg _
  have h12 := mul_le_mul b1 b2 n2 (by norm_num : (0 : ℝ) ≤ 9)
  have h123 := mul_le_mul h12 b3 n3 (by norm_num : (0 : ℝ) ≤ 9 * 16)
  linarith

theorem sample_Kacser_re_bound :
    |(projection_function.Kacser ⟨4, mPi ^ 2⟩ 1).re| ≤ 4 := by
  have h := sample_Kacser_normSq
  have hn := Complex.normSq_nonneg (projection_function.Kacser ⟨4, mPi ^ 2⟩ 1)
  have hre : (projection_function.Kacser ⟨4, mPi ^ 2⟩ 1).re
      * (projection_function.Kacser ⟨4, mPi ^ 2⟩ 1).re
      ≤ Complex.normSq (projection_function.Kacser ⟨4, mPi ^ 2⟩ 1) := by
    rw [Complex.normSq_apply]
    nlinarith [mul_self_nonneg (projection_function.Kacser ⟨4, mPi ^ 2⟩ 1).im]
  generalize Complex.normSq (projection_function.Kacser ⟨4, mPi ^ 2⟩ 1) = N at h hn hre
  generalize (projection_function.Kacser ⟨4, mPi ^ 2⟩ 1).re = r at hre
  have hN : N ≤ 12 := by nlinarith
  rw [abs_le]
  constructor <;> nlinarith

theorem projection_function_t_minus_re (P : projection_function) (s : ℝ) :
    (projection_function.t_minus P s).re
      = P.mDec2 + P.mPi2 - (s + P.mDec2 - P.mPi2) / 2
        - (projection_function.Kacser P s).re / 2 := by
  have e : projection_function.t_minus P s
      = ((P.mDec2 + P.mPi2 - (s + P.mDec2 - P.mPi2) / 2 : ℝ) : ℂ)
        + ((1 / 2 : ℝ) : ℂ) * ieps - ((1 / 2 : ℝ) : ℂ) * projection_function.Kacser P s := by
    unfold projection_function.t_minus
    push_cast
    ring
  rw [e, Complex.sub_re, Complex.add_re, Complex.ofReal_re, Complex.re_ofReal_mul,
    Complex.re_ofReal_mul]
  simp only [ieps]
  ring

theorem projection_function_t_plus_re (P : projection_function) (s : ℝ) :
    (projection_function.t_plus P s).re
      = P.mDec2 + P.mPi2 - (s + P.mDec2 - P.mPi2) / 2
        + (projection_function.Kacser P s).re / 2 := by
  have e : projection_function.t_plus P s
      = ((P.mDec2 + P.mPi2 - (s + P.mDec2 - P.mPi2) / 2 : ℝ) : ℂ)
        + ((1 / 2 : ℝ) : ℂ) * ieps + ((1 / 2 : ℝ) : ℂ) * projection_function.Kacser P s := by
    unfold projection_function.t_plus
    push_cast
    ring
  rw [e, Complex.add_re, Complex.add_re, Complex.ofReal_re, Complex.re_ofReal_mul,
    Complex.re_ofReal_mul]
  simp only [ieps]
  ring

theorem ne_zero_of_re_pos {z : ℂ} (h : 0 < z.re) : z ≠ 0 := by
  intro e
  rw [e, Complex.zero_re] at h
  exact lt_irrefl 0 h

theorem sample_log_arguments :
    (((10 : ℝ) : ℂ) - projection_function.t_minus ⟨4, mPi ^ 2⟩ 1 ≠ 0
      ∧ ((10 : ℝ) : ℂ) - projection_function.t_plus ⟨4, mPi ^ 2⟩ 1 ≠ 0)
    ∧ ((10 : ℝ) : ℂ) - ieps - projection_function.t_minus ⟨4, mPi ^ 2⟩ 1 ≠ 0
    ∧ ((10 : ℝ) : ℂ) - ieps - projection_function.t_plus ⟨4, mPi ^ 2⟩ 1 ≠ 0 := by
  have hb := abs_le.mp sample_Kacser_re_bound
  have hm : mPi ^ 2 ≤ 1 := by
    unfold mPi
    norm_num
  have hm0 : 0 ≤ mPi ^ 2 := sq_nonneg _
  have hi : ieps.re = 0 := rfl
  refine ⟨⟨?_, ?_⟩, ?_, ?_⟩
  · apply ne_zero_of_re_pos
    rw [Complex.sub_re, Complex.ofReal_re, projection_function_t_minus_re]
    dsimp only
    linarith [hb.1, hb.2]
  · apply ne_zero_of_re_pos
    rw [Complex.sub_re, Complex.ofReal_re, projection_function_t_plus_re]
    dsimp only
    linarith [hb.1, hb.2]
  · apply ne_zero_of_re_pos
    rw [Complex.sub_re, Complex.sub_re, Complex.ofReal_re, projection_function_t_minus_re, hi]
    dsimp only
    linarith [hb.1, hb.2]
  · apply ne_zero_of_re_pos
    rw [Complex.sub_re, Complex.sub_re, Complex.ofReal_re, projection_function_t_plus_re, hi]
    dsimp only
    linarith [hb.1, hb.2]

theorem sample_Kacser_ne_zero : projection_function.Kacser ⟨4, mPi ^ 2⟩ 1 ≠ 0 := by
  apply projection_function_Kacser_ne_zero _ _ one_ne_zero
  have e3 : Kallen ((1 : ℝ) : ℂ) ((mPi ^ 2 : ℝ) : ℂ) ((mPi ^ 2 : ℝ) : ℂ)
      = ((1 - 4 * mPi ^ 2 : ℝ) : ℂ) := by
    unfold Kallen
    push_cast
    ring
  show Kallen ((1 : ℝ) : ℂ) ((mPi ^ 2 : ℝ) : ℂ) ((mPi ^ 2 : ℝ) : ℂ) ≠ 0
  rw [e3]
  apply Complex.ofReal_ne_zero.mpr
  unfold mPi
  norm_num

/-- C21, refuted at `p1 = 2`, `mDec2 = 4`, `s = 1`, `t = 10` in the equal-mass
configuration: `scalar_triangle::projection(1, 10)` is not the value `Q_0(1, 10)` that
`projection_function::eval` returns for `j = jp = l = 0`. -/
theorem scalar_triangle_projection_ne_eval :
    projection_function.eval ⟨0, 0, 0, 0, 0⟩ ⟨4, mPi ^ 2⟩ 1 10
        = .ok (projection_function.Q_0 ⟨4, mPi ^ 2⟩ 1 10)
    ∧ scalar_triangle.projection ⟨mPi, mPi, 2, mPi, 0, 0, 0, 0, 2, fun _ => 0⟩ 1 10
        ≠ projection_function.Q_0 ⟨4, mPi ^ 2⟩ 1 10 := by
  refine ⟨projection_function_eval_s_wave_scalar _ _ _ _ _, ?_⟩
  rw [scalar_triangle_projection_equal_mass ⟨mPi, mPi, 2, mPi, 0, 0, 0, 0, 2, fun _ => 0⟩
    ⟨4, mPi ^ 2⟩ rfl rfl rfl (by norm_num) rfl 1 (by norm_num) 10]
  exact projection_log_shift_ne ⟨4, mPi ^ 2⟩ 1 10 sample_Kacser_ne_zero
    sample_log_arguments.1.1 sample_log_arguments.1.2 sample_log_arguments.2.1
    sample_log_arguments.2.2

/-- C21, as amended: in the equal-mass configuration and for `s > 0`,
`scalar_triangle::projection(s, t)` is `(log(t - t_minus(s)) - log(t - t_plus(s))) / Kacser(s)`
with the `t_minus`, `t_plus`, `Kacser` of `projection_function`, that is `Q_0(s, t)`
without the `- ieps` in the arguments of its two logarithms; `projection_function::eval`
for `j = jp = l = 0` returns `Q_0(s, t)`, which has the `- ieps`. -/
theorem scalar_triangle_projection_equal_mass_form (T : scalar_triangle)
    (P : projection_function)
    (hm1 : T.m1 = mPi) (hm2 : T.m2 = mPi) (hp2 : T.p2 = mPi) (hp1 : T.p1 * T.p1 = P.mDec2)
    (hpi : P.mPi2 = mPi ^ 2) (s : ℝ) (hs : 0 < s) (t : ℝ) :
    scalar_triangle.projection T s t
        = (Complex.log ((t : ℂ) - projection_function.t_minus P s)
            - Complex.log ((t : ℂ) - projection_function.t_plus P s))
          / projection_function.Kacser P s
    ∧ (∀ n id : ℤ, projection_function.eval ⟨0, 0, 0, n, id⟩ P s t
        = .ok (projection_function.Q_0 P s t))
    ∧ projection_function.Q_0 P s t
        = (Complex.log ((t : ℂ) - ieps - projection_function.t_minus P s)
            - Complex.log ((t : ℂ) - ieps - projection_function.t_plus P s))
          / projection_function.Kacser P s :=
  ⟨scalar_triangle_projection_equal_mass T P hm1 hm2 hp2 hp1 hpi s hs t,
    fun n id => projection_function_eval_s_wave_scalar P n id s t, rfl⟩

/-- C21 as amended, at `p1 = 2`, `mDec2 = 4`, `s = 1`, `t = 10`. -/
theorem scalar_triangle_projection_equal_mass_form_witness :
    scalar_triangle.projection ⟨mPi, mPi, 2, mPi, 0, 0, 0, 0, 2, fun _ => 0⟩ 1 10
      = (Complex.log (((10 : ℝ) : ℂ) - projection_function.t_minus ⟨4, mPi ^ 2⟩ 1)
          - Complex.log (((10 : ℝ) : ℂ) - projection_function.t_plus ⟨4, mPi ^ 2⟩ 1))
        / projection_function.Kacser ⟨4, mPi ^ 2⟩ 1 :=
  (scalar_triangle_projection_equal_mass_form ⟨mPi, mPi, 2, mPi, 0, 0, 0, 0, 2, fun _ => 0⟩
    ⟨4, mPi ^ 2⟩ rfl rfl rfl (by norm_num) rfl 1 (by norm_num) 10).1

/-! ## The values returned by the quadrature loops -/

theorem foldlM_sum {σ ι : Type} (f : ℂ × σ → ι → Except Fatal (ℂ × σ)) (c1 : σ) (g : ι → ℂ)
    (hf : ∀ a i, f (a, c1) i = .ok (a + g i, c1)) (L : List ι) :
    ∀ a0 : ℂ, L.foldlM f (a0, c1) = .ok (L.foldl (fun a i => a + g i) a0, c1) := by
  induction L with
  | nil => intro a0; rfl
  | cons i L ih =>
    intro a0
    rw [List.foldlM_cons, hf a0 i]
    exact ih (a0 + g i)

theorem triangle_kernel_generated (gl : gauleg_rule) (T : scalar_triangle)
    (c : quadrature_cache) (s t : ℝ) (h : c.WG_GENERATED = true) :
    scalar_triangle.triangle_kernel gl T c s t
      = .ok ((List.range T.xN.toNat).foldl
          (fun (sum : ℂ) (i : ℕ) =>
            sum + ((c.weights.getD i 0 : ℝ) : ℂ)
              * scalar_triangle.kernel_integrand T s t (c.abscissas.getD i 0)) 0, c) := by
  unfold scalar_triangle.triangle_kernel
  rw [check_weights_generated gl T.xN c h]
  rfl

theorem t_dispersion_of_check (gl : gauleg_rule) (T : scalar_triangle)
    (c c1 : quadrature_cache) (s : ℝ)
    (hc : scalar_triangle.check_weights gl T.xN c = .ok c1) :
    scalar_triangle.t_dispersion gl T c s
      = .ok (csqrt (Kallen (s : ℂ) ((T.m1 * T.m1 : ℝ) : ℂ) ((T.m2 * T.m2 : ℝ) : ℂ))
          * ((List.range T.xN.toNat).foldl
              (fun (sum : ℂ) (i : ℕ) =>
                sum + ((c1.weights.getD i 0 : ℝ) : ℂ)
                  * (T.disc (scalar_triangle.tan_node (T.t_thresh + EPS) (c1.abscissas.getD i 0))
                    * scalar_triangle.projection T s
                        (scalar_triangle.tan_node (T.t_thresh + EPS) (c1.abscissas.getD i 0))
                    * ((scalar_triangle.jacobian (c1.abscissas.getD i 0) : ℝ) : ℂ))) 0
            / (Real.pi : ℂ)), c1) := by
  unfold scalar_triangle.t_dispersion
  rw [hc]
  show Except.ok _ = Except.ok _
  congr 4
  congr 1
  funext sum i
  simp only [scalar_triangle.tan_node, scalar_triangle.jacobian]
  push_cast
  ring

theorem eval_feynman_of_check (gl : gauleg_rule) (T : scalar_triangle)
    (c c1 : quadrature_cache) (s : ℝ)
    (hc : scalar_triangle.check_weights gl T.xN c = .ok c1) :
    scalar_triangle.eval_feynman gl T c s
      = .ok ((List.range T.xN.toNat).foldl
          (fun (sum : ℂ) (i : ℕ) =>
            sum + ((c1.weights.getD i 0 : ℝ) : ℂ)
              * (T.disc (scalar_triangle.tan_node T.t_thresh (c1.abscissas.getD i 0))
                * (List.range T.xN.toNat).foldl
                    (fun (sum : ℂ) (j : ℕ) =>
                      sum + ((c1.weights.getD j 0 : ℝ) : ℂ)
                        * scalar_triangle.kernel_integrand T s
                            (scalar_triangle.tan_node T.t_thresh (c1.abscissas.getD i 0))
                            (c1.abscissas.getD j 0)) 0
                * ((scalar_triangle.jacobian (c1.abscissas.getD i 0) : ℝ) : ℂ))) 0
          / (Real.pi : ℂ), c1) := by
  have hg := check_weights_ok_generated gl T.xN c c1 hc
  unfold scalar_triangle.eval_feynman
  rw [hc]
  simp only [bind, Except.bind]
  rw [foldlM_sum _ c1 _ _ _ 0]
  · rfl
  · intro a i
    simp only [triangle_kernel_generated gl T c1 s _ hg, bind, Except.bind, pure, Except.pure]
    congr 2
    simp only [scalar_triangle.tan_node, scalar_triangle.jacobian]
    push_cast
    ring

theorem t_dispersion_generated (gl : gauleg_rule) (T : scalar_triangle)
    (c1 : quadrature_cache) (h : c1.WG_GENERATED = true) :
    ∃ td : ℝ → ℂ, ∀ x : ℝ, scalar_triangle.t_dispersion gl T c1 x = .ok (td x, c1) :=
  ⟨_, fun x => t_dispersion_of_check gl T c1 c1 x (check_weights_generated gl T.xN c1 h)⟩

theorem s_dispersion_inf_of_check (gl : gauleg_rule) (T : scalar_triangle)
    (c c1 : quadrature_cache) (s low : ℝ) (td : ℝ → ℂ)
    (hc : scalar_triangle.check_weights gl T.xN c = .ok c1)
    (htd : ∀ x : ℝ, scalar_triangle.t_dispersion gl T c1 x = .ok (td x, c1)) :
    scalar_triangle.s_dispersion_inf gl T c s low
      = .ok (((List.range T.xN.toNat).foldl
            (fun (sum : ℂ) (i : ℕ) =>
              sum + ((c1.weights.getD i 0 : ℝ) : ℂ)
                * ((td (scalar_triangle.tan_node low (c1.abscissas.getD i 0)) - td s)
                    / (((scalar_triangle.tan_node low (c1.abscissas.getD i 0) : ℝ) : ℂ)
                      * (((scalar_triangle.tan_node low (c1.abscissas.getD i 0) : ℝ) : ℂ)
                          - (s : ℂ) - ieps))
                  * ((scalar_triangle.jacobian (c1.abscissas.getD i 0) : ℝ) : ℂ))) 0
          + -(td s) / (s : ℂ)
            * (Complex.log ((low : ℂ) - (s : ℂ) * xr) - ((Real.log low : ℝ) : ℂ)))
          / (Real.pi : ℂ), c1) := by
  unfold scalar_triangle.s_dispersion_inf
  rw [hc]
  simp only [bind, Except.bind, htd]
  rw [foldlM_sum _ c1 _ _ _ 0]
  · rfl
  · intro a i
    simp only [htd, bind, Except.bind, pure, Except.pure]

theorem s_dispersion_of_check (gl : gauleg_rule) (T : scalar_triangle)
    (c c1 : quadrature_cache) (s low high : ℝ) (td : ℝ → ℂ)
    (hc : scalar_triangle.check_weights gl T.xN
      { c with gauleg_calls := c.gauleg_calls ++ [⟨low, high, T.xN + 1, T.xN⟩] } = .ok c1)
    (htd : ∀ x : ℝ, scalar_triangle.t_dispersion gl T c1 x = .ok (td x, c1)) :
    scalar_triangle.s_dispersion gl T c s low high
      = .ok (((scalar_triangle.indices_from_one T.xN).foldl
            (fun (sum : ℂ) (i : ℤ) =>
              sum + ((gl.w low high T.xN i : ℝ) : ℂ)
                * ((td (gl.x low high T.xN i) - td s)
                    / (((gl.x low high T.xN i : ℝ) : ℂ)
                      * (((gl.x low high T.xN i : ℝ) : ℂ) - (s : ℂ) - ieps)))) 0
          + scalar_triangle.s_dispersion_log_term (td s) s low high)
          / (Real.pi : ℂ), c1) := by
  have hg := check_weights_ok_generated gl T.xN _ c1 hc
  have hsub : scalar_triangle.t_dispersion gl T
      { c with gauleg_calls := c.gauleg_calls ++ [⟨low, high, T.xN + 1, T.xN⟩] } s
      = .ok (td s, c1) := by
    have h1 := t_dispersion_of_check gl T _ c1 s hc
    have h2 := t_dispersion_of_check gl T c1 c1 s (check_weights_generated gl T.xN c1 hg)
    rw [h1, ← h2]
    exact htd s
  unfold scalar_triangle.s_dispersion
  simp only [bind, Except.bind, hsub]
  rw [foldlM_sum _ c1 _ _ _ 0]
  · rfl
  · intro a i
    simp only [htd, bind, Except.bind, pure, Except.pure]

/-! ## The quadrature loops on a cache that `check_weights` left ready -/

theorem check_weights_ready (gl : gauleg_rule) (xN : ℤ) (c : quadrature_cache) (hN : 0 ≤ xN)
    (hwf : c.WG_GENERATED = false
      ∨ (c.weights.length = xN.toNat ∧ c.abscissas.length = xN.toNat)) :
    ∃ c1, scalar_triangle.check_weights gl xN c = .ok c1
      ∧ c1.WG_GENERATED = true
      ∧ c1.weights.length = xN.toNat ∧ c1.abscissas.length = xN.toNat := by
  by_cases hg : c.WG_GENERATED = false
  · refine ⟨_, check_weights_fresh gl xN c hg hN, rfl, ?_, ?_⟩
    · simp [indices_from_one_length]
    · simp [indices_from_one_length]
  · have hg' : c.WG_GENERATED = true := by simpa using hg
    rcases hwf with h | h
    · exact absurd h hg
    · exact ⟨c, check_weights_generated gl xN c hg', hg', h.1, h.2⟩

theorem triangle_kernel_generated_exists (gl : gauleg_rule) (T : scalar_triangle)
    (c1 : quadrature_cache) (s : ℝ) (h : c1.WG_GENERATED = true) :
    ∃ k : ℝ → ℂ, ∀ t : ℝ, scalar_triangle.triangle_kernel gl T c1 s t = .ok (k t, c1) :=
  ⟨_, fun t => triangle_kernel_generated gl T c1 s t h⟩

theorem eval_feynman_of_kernel (gl : gauleg_rule) (T : scalar_triangle)
    (c c1 : quadrature_cache) (s : ℝ) (k : ℝ → ℂ)
    (hc : scalar_triangle.check_weights gl T.xN c = .ok c1)
    (hk : ∀ t : ℝ, scalar_triangle.triangle_kernel gl T c1 s t = .ok (k t, c1)) :
    scalar_triangle.eval_feynman gl T c s
      = .ok ((List.range T.xN.toNat).foldl
          (fun (sum : ℂ) (i : ℕ) =>
            sum + ((c1.weights.getD i 0 : ℝ) : ℂ)
              * (T.disc (scalar_triangle.tan_node T.t_thresh (c1.abscissas.getD i 0))
                * k (scalar_triangle.tan_node T.t_thresh (c1.abscissas.getD i 0))
                * ((scalar_triangle.jacobian (c1.abscissas.getD i 0) : ℝ) : ℂ))) 0
          / (Real.pi : ℂ), c1) := by
  unfold scalar_triangle.eval_feynman
  rw [hc]
  simp only [bind, Except.bind]
  rw [foldlM_sum _ c1 _ _ _ 0]
  · rfl
  · intro a i
    have hk' := hk (T.t_thresh + Real.tan (Real.pi * c1.abscissas.getD i 0 / 2))
    simp only [hk', bind, Except.bind, pure, Except.pure]
    congr 2
    simp only [scalar_triangle.tan_node, scalar_triangle.jacobian]
    push_cast
    ring

theorem tan_node_deriv (a u : ℝ) (h0 : 0 ≤ u) (h1 : u < 1) :
    HasDerivAt (fun v : ℝ => scalar_triangle.tan_node a v) (scalar_triangle.jacobian u) u := by
  have hpi := Real.pi_pos
  have hcos : 0 < Real.cos (Real.pi * u / 2) := by
    apply Real.cos_pos_of_mem_Ioo
    constructor
    · have : 0 ≤ Real.pi * u := mul_nonneg (le_of_lt hpi) h0
      linarith
    · have : Real.pi * u < Real.pi * 1 := mul_lt_mul_of_pos_left h1 hpi
      linarith
  have hin : HasDerivAt (fun v : ℝ => Real.pi * v / 2) (Real.pi * 1 / 2) u :=
    ((hasDerivAt_id u).const_mul Real.pi).div_const 2
  have ht := (Real.hasDerivAt_tan (ne_of_gt hcos)).comp u hin
  have h := ht.const_add a
  have e : 1 / Real.cos (Real.pi * u / 2) ^ 2 * (Real.pi * 1 / 2)
      = scalar_triangle.jacobian u := by
    unfold scalar_triangle.jacobian
    rw [Real.rpow_two]
    have hc0 : Real.cos (Real.pi * u / 2) ≠ 0 := ne_of_gt hcos
    field_simp
    left
    ring
  rw [← e]
  exact h

/-- C9: once `check_weights` has left the cache with `xN` weights and abscissas, each
of `t_dispersion`, `eval_feynman` and `s_dispersion_inf` returns the sum over the
cached abscissas `u_i` of `weights[i]` times its integrand taken at the node
`a + tan(π u_i/2)` (with `a = t_thresh + EPS`, `t_thresh`, `low`) times the factor
`(π/2)/cos²(π u_i/2)`; and for `0 ≤ u < 1` that factor is the derivative at `u` of
the node map `u ↦ a + tan(π u/2)`. -/
theorem quadrature_nodes_jacobian (gl : gauleg_rule) (T : scalar_triangle)
    (c : quadrature_cache) (s low a u : ℝ) (hN : 0 ≤ T.xN)
    (hwf : c.WG_GENERATED = false
      ∨ (c.weights.length = T.xN.toNat ∧ c.abscissas.length = T.xN.toNat))
    (h0 : 0 ≤ u) (h1 : u < 1) :
    HasDerivAt (fun v : ℝ => a + Real.tan (Real.pi * v / 2))
        ((Real.pi / 2) / (Real.cos (Real.pi * u / 2)) ^ (2 : ℝ)) u
    ∧ (∀ b v : ℝ, scalar_triangle.tan_node b v = b + Real.tan (Real.pi * v / 2))
    ∧ (∀ v : ℝ, scalar_triangle.jacobian v
        = (Real.pi / 2) / (Real.cos (Real.pi * v / 2)) ^ (2 : ℝ))
    ∧ ∃ (c1 : quadrature_cache) (k td : ℝ → ℂ),
        scalar_triangle.check_weights gl T.xN c = .ok c1
        ∧ c1.weights.length = T.xN.toNat ∧ c1.abscissas.length = T.xN.toNat
        ∧ (∀ t : ℝ, scalar_triangle.triangle_kernel gl T c1 s t = .ok (k t, c1))
        ∧ (∀ x : ℝ, scalar_triangle.t_dispersion gl T c1 x = .ok (td x, c1))
        ∧ scalar_triangle.t_dispersion gl T c s
          = .ok (csqrt (Kallen (s : ℂ) ((T.m1 * T.m1 : ℝ) : ℂ) ((T.m2 * T.m2 : ℝ) : ℂ))
              * ((List.range T.xN.toNat).foldl
                  (fun (sum : ℂ) (i : ℕ) =>
                    sum + ((c1.weights.getD i 0 : ℝ) : ℂ)
                      * (T.disc (scalar_triangle.tan_node (T.t_thresh + EPS)
                            (c1.abscissas.getD i 0))
                        * scalar_triangle.projection T s
                            (scalar_triangle.tan_node (T.t_thresh + EPS)
                              (c1.abscissas.getD i 0))
                        * ((scalar_triangle.jacobian (c1.abscissas.getD i 0) : ℝ) : ℂ))) 0
                / (Real.pi : ℂ)), c1)
        ∧ scalar_triangle.eval_feynman gl T c s
          = .ok ((List.range T.xN.toNat).foldl
              (fun (sum : ℂ) (i : ℕ) =>
                sum + ((c1.weights.getD i 0 : ℝ) : ℂ)
                  * (T.disc (scalar_triangle.tan_node T.t_thresh (c1.abscissas.getD i 0))
                    * k (scalar_triangle.tan_node T.t_thresh (c1.abscissas.getD i 0))
                    * ((scalar_triangle.jacobian (c1.abscissas.getD i 0) : ℝ) : ℂ))) 0
              / (Real.pi : ℂ), c1)
        ∧ scalar_triangle.s_dispersion_inf gl T c s low
          = .ok (((List.range T.xN.toNat).foldl
                (fun (sum : ℂ) (i : ℕ) =>
                  sum + ((c1.weights.getD i 0 : ℝ) : ℂ)
                    * ((td (scalar_triangle.tan_node low (c1.abscissas.getD i 0)) - td s)
                        / (((scalar_triangle.tan_node low (c1.abscissas.getD i 0) : ℝ) : ℂ)
                          * (((scalar_triangle.tan_node low (c1.abscissas.getD i 0) : ℝ) : ℂ)
                              - (s : ℂ) - ieps))
                      * ((scalar_triangle.jacobian (c1.abscissas.getD i 0) : ℝ) : ℂ))) 0
              + -(td s) / (s : ℂ)
                * (Complex.log ((low : ℂ) - (s : ℂ) * xr) - ((Real.log low : ℝ) : ℂ)))
              / (Real.pi : ℂ), c1) := by
  obtain ⟨c1, hc, hg, hw, hx⟩ := check_weights_ready gl T.xN c hN hwf
  obtain ⟨k, hk⟩ := triangle_kernel_generated_exists gl T c1 s hg
  obtain ⟨td, htd⟩ := t_dispersion_generated gl T c1 hg
  exact ⟨tan_node_deriv a u h0 h1, fun b v => rfl, fun v => rfl, c1, k, td, hc, hw, hx, hk, htd,
    t_dispersion_of_check gl T c c1 s hc, eval_feynman_of_kernel gl T c c1 s k hc hk,
    s_dispersion_inf_of_check gl T c c1 s low td hc htd⟩

/-- C9, at order `2`, the empty not-generated cache, `a = 4` and `u = 1/2`. -/
theorem quadrature_nodes_jacobian_witness :
    HasDerivAt (fun v : ℝ => (4 : ℝ) + Real.tan (Real.pi * v / 2))
      ((Real.pi / 2) / (Real.cos (Real.pi * (1 / 2) / 2)) ^ (2 : ℝ)) (1 / 2) :=
  (quadrature_nodes_jacobian ⟨fun _ _ _ _ => 0, fun _ _ _ _ => 1⟩
    ⟨1, 1, 3, 1, 4, 4, 4, 1, 2, fun _ => 1⟩ ⟨false, [], [], []⟩ 1 5 4 (1 / 2) (by decide)
    (Or.inl rfl) (by norm_num) (by norm_num)).1

theorem eval_feynman_ready (gl : gauleg_rule) (T : scalar_triangle) (c : quadrature_cache)
    (s : ℝ) (hN : 0 ≤ T.xN)
    (hwf : c.WG_GENERATED = false
      ∨ (c.weights.length = T.xN.toNat ∧ c.abscissas.length = T.xN.toNat)) :
    ∃ (v : ℂ) (c1 : quadrature_cache), scalar_triangle.eval_feynman gl T c s = .ok (v, c1)
      ∧ c1.WG_GENERATED = true
      ∧ c1.weights.length = T.xN.toNat ∧ c1.abscissas.length = T.xN.toNat := by
  obtain ⟨c1, hc, hg, hw, hx⟩ := check_weights_ready gl T.xN c hN hwf
  exact ⟨_, c1, eval_feynman_of_check gl T c c1 s hc, hg, hw, hx⟩

theorem s_dispersion_inf_ready (gl : gauleg_rule) (T : scalar_triangle) (c : quadrature_cache)
    (s low : ℝ) (hN : 0 ≤ T.xN)
    (hwf : c.WG_GENERATED = false
      ∨ (c.weights.length = T.xN.toNat ∧ c.abscissas.length = T.xN.toNat)) :
    ∃ (v : ℂ) (c1 : quadrature_cache), scalar_triangle.s_dispersion_inf gl T c s low = .ok (v, c1)
      ∧ c1.WG_GENERATED = true
      ∧ c1.weights.length = T.xN.toNat ∧ c1.abscissas.length = T.xN.toNat := by
  obtain ⟨c1, hc, hg, hw, hx⟩ := check_weights_ready gl T.xN c hN hwf
  obtain ⟨td, htd⟩ := t_dispersion_generated gl T c1 hg
  exact ⟨_, c1, s_dispersion_inf_of_check gl T c c1 s low td hc htd, hg, hw, hx⟩

theorem s_dispersion_ready (gl : gauleg_rule) (T : scalar_triangle) (c : quadrature_cache)
    (s low high : ℝ) (hN : 0 ≤ T.xN)
    (hwf : c.WG_GENERATED = false
      ∨ (c.weights.length = T.xN.toNat ∧ c.abscissas.length = T.xN.toNat)) :
    ∃ (v : ℂ) (c1 : quadrature_cache),
      scalar_triangle.s_dispersion gl T c s low high = .ok (v, c1)
      ∧ c1.WG_GENERATED = true
      ∧ c1.weights.length = T.xN.toNat ∧ c1.abscissas.length = T.xN.toNat := by
  obtain ⟨c1, hc, hg, hw, hx⟩ := check_weights_ready gl T.xN
    { c with gauleg_calls := c.gauleg_calls ++ [⟨low, high, T.xN + 1, T.xN⟩] } hN hwf
  obtain ⟨td, htd⟩ := t_dispersion_generated gl T c1 hg
  exact ⟨_, c1, s_dispersion_of_check gl T c c1 s low high td hc htd, hg, hw, hx⟩

theorem eval_dispersive_ready (gl : gauleg_rule) (T : scalar_triangle) (c : quadrature_cache)
    (s : ℝ) (hN : 0 ≤ T.xN)
    (hwf : c.WG_GENERATED = false
      ∨ (c.weights.length = T.xN.toNat ∧ c.abscissas.length = T.xN.toNat)) :
    ∃ (v : ℂ) (c1 : quadrature_cache), scalar_triangle.eval_dispersive gl T c s = .ok (v, c1)
      ∧ c1.WG_GENERATED = true
      ∧ c1.weights.length = T.xN.toNat ∧ c1.abscissas.length = T.xN.toNat := by
  unfold scalar_triangle.eval_dispersive
  split
  · exact s_dispersion_inf_ready gl T c s _ hN hwf
  · obtain ⟨v, c1, h1, hg, hw, hx⟩ := s_dispersion_ready gl T c s (T.s_thresh + EPS)
      (T.p_thresh - T.exc) hN hwf
    obtain ⟨v2, c2, h2, hg2, hw2, hx2⟩ := s_dispersion_inf_ready gl T c1 s
      (T.p_thresh + T.exc) hN (Or.inr ⟨hw, hx⟩)
    refine ⟨v + v2, c2, ?_, hg2, hw2, hx2⟩
    rw [h1]
    simp only [bind, Except.bind]
    rw [h2]
    rfl

/-- C16, as amended: with the discontinuity function set, a quadrature order `xN ≥ 0`
and a cache that is either not yet generated or holds `xN` weights and `xN`
abscissas, `eval_feynman(s)` and `eval_dispersive(s)` make no check of the masses
or thresholds: whatever values those fields hold, both compute from them and
return a value, leaving the cache generated with `xN` weights and abscissas. -/
theorem scalar_triangle_eval_no_configuration_check (gl : gauleg_rule) (T : scalar_triangle)
    (c : quadrature_cache) (s : ℝ) (hN : 0 ≤ T.xN)
    (hwf : c.WG_GENERATED = false
      ∨ (c.weights.length = T.xN.toNat ∧ c.abscissas.length = T.xN.toNat)) :
    (∃ (v : ℂ) (c1 : quadrature_cache), scalar_triangle.eval_feynman gl T c s = .ok (v, c1)
      ∧ c1.WG_GENERATED = true
      ∧ c1.weights.length = T.xN.toNat ∧ c1.abscissas.length = T.xN.toNat)
    ∧ (∃ (v : ℂ) (c1 : quadrature_cache), scalar_triangle.eval_dispersive gl T c s = .ok (v, c1)
      ∧ c1.WG_GENERATED = true
      ∧ c1.weights.length = T.xN.toNat ∧ c1.abscissas.length = T.xN.toNat) :=
  ⟨eval_feynman_ready gl T c s hN hwf, eval_dispersive_ready gl T c s hN hwf⟩

/-- C16 as amended, at masses and thresholds all `0`, order `2` and a fresh cache. -/
theorem scalar_triangle_eval_no_configuration_check_witness :
    (∃ (v : ℂ) (c1 : quadrature_cache),
      scalar_triangle.eval_feynman ⟨fun _ _ _ _ => 0, fun _ _ _ _ => 1⟩
        ⟨0, 0, 0, 0, 0, 0, 0, 0, 2, fun _ => 1⟩ ⟨false, [], [], []⟩ 1 = .ok (v, c1)
      ∧ c1.WG_GENERATED = true
      ∧ c1.weights.length = (2 : ℤ).toNat ∧ c1.abscissas.length = (2 : ℤ).toNat)
    ∧ (∃ (v : ℂ) (c1 : quadrature_cache),
      scalar_triangle.eval_dispersive ⟨fun _ _ _ _ => 0, fun _ _ _ _ => 1⟩
        ⟨0, 0, 0, 0, 0, 0, 0, 0, 2, fun _ => 1⟩ ⟨false, [], [], []⟩ 1 = .ok (v, c1)
      ∧ c1.WG_GENERATED = true
      ∧ c1.weights.length = (2 : ℤ).toNat ∧ c1.abscissas.length = (2 : ℤ).toNat) :=
  scalar_triangle_eval_no_configuration_check ⟨fun _ _ _ _ => 0, fun _ _ _ _ => 1⟩
    ⟨0, 0, 0, 0, 0, 0, 0, 0, 2, fun _ => 1⟩ ⟨false, [], [], []⟩ 1 (by decide) (Or.inl rfl)

/-! ## The pole term with its `ieps` -/

end KT
